import Mathlib

/-
Verification of the sanexml tree model and its surgery, masking and
indentation operations (src/sanexml/etree.py), as a shallow embedding.

The canonical tree model is `Node` (spec section 3): a tag (an element name or
the comment sentinel), an ordered attribute mapping, optional text and tail
character data, and an ordered list of children.  The Python code stores
comment nodes as elements whose tag is the sentinel object `ET.Comment`;
here the sentinel is the constructor `Tag.comment`.
-/

namespace Sanexml

/-- Element tag: either a name string (namespace-qualified names are part of
the literal string) or the reserved comment sentinel (`ET.Comment`). -/
inductive Tag where
  | name (s : String)
  | comment
deriving DecidableEq, Repr

/-- A node of the canonical tree: tag, attributes (an insertion-ordered
mapping, as a Python dict is), optional `text`, optional `tail` and the list
of children.  This is the only entity of the data model. -/
inductive Node : Type where
  | mk (tag : Tag) (attrib : List (String × String)) (text : Option String)
      (tail : Option String) (children : List Node)

/-- Tag of a node. -/
def Node.tag : Node → Tag
  | .mk t _ _ _ _ => t

/-- Attributes of a node. -/
def Node.attrib : Node → List (String × String)
  | .mk _ a _ _ _ => a

/-- Text immediately inside the node, before its first child. -/
def Node.text : Node → Option String
  | .mk _ _ tx _ _ => tx

/-- Character data trailing the node, before the next sibling. -/
def Node.tail : Node → Option String
  | .mk _ _ _ tl _ => tl

/-- Children of a node, in document order. -/
def Node.children : Node → List Node
  | .mk _ _ _ _ cs => cs

/-- Replace the tail of a node. -/
def Node.withTail (n : Node) (tl : Option String) : Node :=
  match n with
  | .mk t a tx _ cs => .mk t a tx tl cs

/-- Induction over nodes: to prove `P` for every node it suffices to prove it
for a node whose children all satisfy `P`. -/
theorem Node.ind {P : Node → Prop}
    (h : ∀ t a tx tl cs, (∀ c ∈ cs, P c) → P (.mk t a tx tl cs)) : ∀ n, P n :=
  fun n =>
    @Node.rec P (fun cs => ∀ c ∈ cs, P c)
      (fun t a tx tl cs ih => h t a tx tl cs ih)
      (fun c hc => absurd hc (List.not_mem_nil c))
      (fun c cs ihc ihcs x hx => by
        cases hx with
        | head => exact ihc
        | tail _ h2 => exact ihcs x h2)
      n

mutual

/-- Boolean structural equality of nodes. -/
def Node.beq : Node → Node → Bool
  | .mk t1 a1 tx1 tl1 cs1, .mk t2 a2 tx2 tl2 cs2 =>
    decide (t1 = t2) && decide (a1 = a2) && decide (tx1 = tx2) && decide (tl1 = tl2) &&
      beqNodeList cs1 cs2

/-- Boolean structural equality of node lists. -/
def beqNodeList : List Node → List Node → Bool
  | [], [] => true
  | c :: cs, d :: ds => Node.beq c d && beqNodeList cs ds
  | _, _ => false

end

theorem Node.beq_iff : ∀ m n : Node, (Node.beq m n = true ↔ m = n) := by
  have main : ∀ m : Node, (∀ n, (Node.beq m n = true ↔ m = n)) ∧
      True := by
    intro m
    refine ⟨?_, trivial⟩
    induction m using Node.ind with
    | _ t a tx tl cs ih =>
      have listcase : ∀ cs2, (∀ c ∈ cs, ∀ n, (Node.beq c n = true ↔ c = n)) →
          (beqNodeList cs cs2 = true ↔ cs = cs2) := by
        clear ih
        induction cs with
        | nil =>
          intro cs2 _
          cases cs2 with
          | nil => simp [beqNodeList]
          | cons d ds => simp [beqNodeList]
        | cons c cs ihl =>
          intro cs2 hmem
          cases cs2 with
          | nil => simp [beqNodeList]
          | cons d ds =>
            rw [beqNodeList]
            rw [Bool.and_eq_true]
            rw [hmem c (List.mem_cons_self c cs) d]
            rw [ihl ds (fun x hx n2 => hmem x (List.mem_cons_of_mem c hx) n2)]
            constructor
            · rintro ⟨h1, h2⟩; rw [h1, h2]
            · intro h; cases h; exact ⟨rfl, rfl⟩
      intro n
      cases n with
      | mk t2 a2 tx2 tl2 cs2 =>
        rw [Node.beq]
        simp only [Bool.and_eq_true, decide_eq_true_eq]
        rw [listcase cs2 (fun c hc n2 => ih c hc n2)]
        constructor
        · rintro ⟨⟨⟨⟨h1, h2⟩, h3⟩, h4⟩, h5⟩
          rw [h1, h2, h3, h4, h5]
        · intro h
          cases h
          exact ⟨⟨⟨⟨rfl, rfl⟩, rfl⟩, rfl⟩, rfl⟩
  intro m n
  exact (main m).1 n

instance : DecidableEq Node := fun m n =>
  decidable_of_iff (Node.beq m n = true) (Node.beq_iff m n)

mutual

/-- The character-data stream of a node: its `text` (comment content is not
document character data, so a comment node's text is skipped), then for each
child in order the child's stream followed by the child's `tail`.  (The
node's own tail is not part of its stream.)  Used to observe whether an
operation preserves the surrounding character data. -/
def Node.charData : Node → String
  | .mk t _ tx _ cs =>
    (if t = Tag.comment then "" else tx.getD "") ++ charDataList cs

/-- Character-data stream of a sibling list. -/
def charDataList : List Node → String
  | [] => ""
  | .mk t a tx tl gs :: cs =>
    Node.charData (.mk t a tx tl gs) ++ tl.getD "" ++ charDataList cs

end

mutual

/-- Number of comment nodes in a subtree (the root included). -/
def Node.countComments : Node → Nat
  | .mk t _ _ _ cs => (if t = Tag.comment then 1 else 0) + countCommentsList cs

/-- Number of comment nodes in a forest. -/
def countCommentsList : List Node → Nat
  | [] => 0
  | c :: cs => Node.countComments c + countCommentsList cs

end

/-!
WildcardMatcher (spec section 4.2).

`strip_attributes` compiles every pattern with
`re.compile(attribute.replace("*", ".*"))` and tests an attribute name with
`compiled.match(name)` (`remove_attribute`, etree.py lines 31-37 and 228-230).
`replace` rewrites every `*` into `.*`; the compiled pattern is then matched
by Python `re.match`, which anchors at the START of the name only: it succeeds
whenever the pattern matches some prefix of the name.

`reMatch` below is the matching semantics of such a compiled pattern for the
pattern alphabet this library uses (letters, digits, `_`, `-`, `:`, `/` and
the inserted `.`/`.*` pairs): `.` matches any single character, a `.*` pair
matches any run of characters, every other character matches itself.
Characters that are `re` metacharacters beyond `.` and `*` (such as `+`, `?`,
`(`, `[`, backslash, or a brace pair that forms a repetition quantifier) are outside
this model; the theorems below restrict the pattern alphabet accordingly.
-/

/-- `p.replace("*", ".*")`: every `*` becomes the two characters `.` `*`. -/
def compileGlob (p : List Char) : List Char :=
  p.flatMap fun c => if c = '*' then ['.', '*'] else [c]

/-- Try a boolean test on every suffix of the input (used for the
zero-or-more-characters semantics of `.*`). -/
def tryAllSuffixes (f : List Char → Bool) : List Char → Bool
  | [] => f []
  | c :: s => f (c :: s) || tryAllSuffixes f s

/-- One token of a compiled pattern: `.` (any single character), the pair
`.*` (any run of characters, produced from a `*` of the source pattern), or a
literal character. -/
inductive RAtom where
  | anyChar
  | anyStar
  | lit (c : Char)
deriving DecidableEq, Repr

/-- Tokenization of a compiled pattern.  In the output of `compileGlob` every
`*` is immediately preceded by the `.` inserted with it, so reading `.`
followed by `*` as one `anyStar` token is exact. -/
def ratoms : List Char → List RAtom
  | [] => []
  | [c] => if c = '.' then [.anyChar] else [.lit c]
  | c :: c2 :: p =>
    if c = '.' then
      if c2 = '*' then .anyStar :: ratoms p
      else .anyChar :: ratoms (c2 :: p)
    else .lit c :: ratoms (c2 :: p)

/-- Matching of a tokenized pattern against the input, anchored at the start
only, as Python `re.match` does: true iff the pattern can match some prefix
of the input. -/
def reMatchA : List RAtom → List Char → Bool
  | [], _ => true
  | .anyStar :: p, s => tryAllSuffixes (reMatchA p) s
  | .anyChar :: p, s =>
    match s with
    | [] => false
    | _ :: s2 => reMatchA p s2
  | .lit c :: p, s =>
    match s with
    | [] => false
    | c2 :: s2 => decide (c = c2) && reMatchA p s2

/-- Matching of a compiled pattern, anchored at the start only. -/
def reMatch (p s : List Char) : Bool := reMatchA (ratoms p) s

/-- One supplied pattern, compiled and matched against a name, as
`strip_attributes` does for each element of `attribute_names`. -/
def globMatch (pattern name : String) : Bool :=
  reMatch (compileGlob pattern.toList) name.toList

/-- The matcher as the specification describes it, for comparison: the name
must consist of the pattern's characters before the `*` taken literally, then
zero or more arbitrary characters in place of the `*`, then the pattern's
characters after the `*` taken literally; a pattern without `*` matches only
the name equal to it. -/
def specGlobMatch (pattern name : String) : Bool :=
  let p := pattern.toList
  let s := name.toList
  if p.contains '*' then
    let pre := p.takeWhile (fun c => c ≠ '*')
    let suf := (p.dropWhile (fun c => c ≠ '*')).tail
    decide (pre.length + suf.length ≤ s.length) &&
      decide (s.take pre.length = pre) &&
      decide (s.drop (s.length - suf.length) = suf)
  else decide (p = s)

/-- Characters for which the model's matching semantics agrees with Python
`re` for the compiled pattern: anything that is not `*`, not `.`, and not a
metacharacter of `re`. -/
def plainChar (c : Char) : Bool :=
  c.isAlphanum || c = '_' || c = '-' || c = ':' || c = '/'

/-- The left curly brace character, used by namespace-qualified names. -/
def lbrace : Char := Char.ofNat 123

/-- The right curly brace character. -/
def rbrace : Char := Char.ofNat 125

/-- The alphabet of this library's glob patterns: plain characters, the
braces of namespace-qualified names, and `.` (which `re` reads as
match-any-character). -/
def globPatChar (c : Char) : Bool :=
  plainChar c || c = lbrace || c = rbrace || c = '.'

/-- A character that can continue a `re` repetition quantifier opened by a
left brace: a digit, a comma, or the closing brace. -/
def quantStartChar (c : Char) : Bool :=
  c.isDigit || c = ',' || c = rbrace

/-- No left brace of the pattern opens a `re` repetition quantifier: every
left brace is followed by a character that is not a digit, not a comma and
not a right brace (or ends the pattern).  Python's pattern parser then fails
the quantifier parse immediately and falls back to a literal brace, and every
free-standing right brace is literal as well — exactly the namespace-name
case the glob language uses braces for.  Replacing `*` with `.*` preserves
this property, since the character after a brace can only change from `*` to
`.`. -/
def noQuantBrace : List Char → Bool
  | [] => true
  | [_] => true
  | c :: c2 :: rest =>
    (if c = lbrace then !quantStartChar c2 else true) && noQuantBrace (c2 :: rest)

/-- One compiled-pattern character against one name character: `.` matches
any character, every other character of the glob alphabet (braces included)
matches only itself. -/
def charMatchSpec (pc c : Char) : Prop := pc = '.' ∨ pc = c

/-- The token a single glob-alphabet character compiles to. -/
def atomOf (c : Char) : RAtom :=
  if c = '.' then RAtom.anyChar else RAtom.lit c

/-!
TreeSurgery (spec section 4.4), from `strip_attributes` (etree.py 212-239),
`remove_attribute` (31-37), `strip_elements` (242-287) and `strip_tags`
(290-327).
-/

/-- A name is selected when the inner loop of `remove_attribute` finds a first
compiled pattern whose `match` succeeds (`for del_attr in attributes_to_delete:
if del_attr.match(attribute): attributes.pop(attribute); break`). -/
def matchesAny (pats : List String) (k : String) : Bool :=
  (pats.find? (fun p => globMatch p k)).isSome

/-- From `remove_attribute`: iterate over a snapshot of the attribute names
(`for attribute in list(attributes)`) and pop each name some pattern matches.
On the association-list representation the pop is the removal of the (unique)
entry with that key. -/
def removeAttribute (pats : List String) (attrs : List (String × String)) :
    List (String × String) :=
  (attrs.map Prod.fst).foldl
    (fun acc k =>
      if matchesAny pats k then acc.eraseP (fun kv => kv.1 == k) else acc)
    attrs

/-- Result of `remove_attribute` on a single node: only its own attribute
mapping changes. -/
def Node.removeAttrs (pats : List String) : Node → Node
  | .mk t a tx tl cs => .mk t (removeAttribute pats a) tx tl cs

mutual

/-- `remove_attribute` applied to every node of a subtree, root included, as
the `ElementTree` branch of `strip_attributes` does by iterating
`tree_or_element.iter()` (which yields the root and every descendant) and
mutating each visited element independently. -/
def Node.removeAttrsAll (pats : List String) : Node → Node
  | .mk t a tx tl cs => .mk t (removeAttribute pats a) tx tl (removeAttrsAllList pats cs)

/-- `Node.removeAttrsAll` over a forest. -/
def removeAttrsAllList (pats : List String) : List Node → List Node
  | [] => []
  | c :: cs => Node.removeAttrsAll pats c :: removeAttrsAllList pats cs

end

/-- The value passed to a surgery operation: a single element, a whole tree,
or any other Python value (represented by its type name), which has neither
the `Element` nor the `ElementTree` interface. -/
inductive Scope where
  | element (n : Node)
  | tree (n : Node)
  | other (ty : String)
deriving DecidableEq

/-- Python exceptions the surgery operations can raise on a bad scope:
`TypeError` (the explicit invalid-argument check of `strip_attributes`) and
`AttributeError` (the failure of `root.iter()` on a value without the element
interface, in `strip_elements` / `strip_tags`). -/
inductive PyErr where
  | typeError (msg : String)
  | attributeError (msg : String)
deriving DecidableEq, Repr

instance {α β : Type} [DecidableEq α] [DecidableEq β] : DecidableEq (Except α β) :=
  fun a b =>
    match a, b with
    | .ok x, .ok y =>
      decidable_of_iff (x = y) ⟨fun h => by rw [h], fun h => by cases h; rfl⟩
    | .error x, .error y =>
      decidable_of_iff (x = y) ⟨fun h => by rw [h], fun h => by cases h; rfl⟩
    | .ok _, .error _ => isFalse (fun h => by cases h)
    | .error _, .ok _ => isFalse (fun h => by cases h)

/-- `strip_attributes(tree_or_element, *attribute_names)` (etree.py 212-239):
after compiling the patterns, an `Element` scope gets `remove_attribute`
applied to THAT element alone (no recursion into descendants); an
`ElementTree` scope gets it applied to every node via `iter()`; any other
value raises the `TypeError` of lines 237-239 before any mutation. -/
def stripAttributes (scope : Scope) (pats : List String) : Except PyErr Scope :=
  match scope with
  | .element n => .ok (.element (n.removeAttrs pats))
  | .tree n => .ok (.tree (n.removeAttrsAll pats))
  | .other ty =>
    .error (.typeError
      ("tree_or_element should be a type of Element or ElementTree, but found " ++ ty))

/-- A selector passed to `strip_elements` / `strip_tags`: a tag-name string,
or the comment sentinel `ET.Comment` (which at runtime is a factory function,
not an `Element` instance). -/
inductive Selector where
  | tagName (s : String)
  | commentSentinel
deriving DecidableEq, Repr

mutual

/-- Removal of every descendant whose tag equals the given name, from the
string-selector branch of `strip_elements`: the matches are
`root.findall(".//" + tag)` (all matching descendants, the scope root
excluded) and each is removed from its parent located via the prebuilt parent
map.  A match nested inside another match is removed while already detached,
so the surviving tree is the recursive removal below.  The `with_tail` flag
only controls `element_to_be_removed.tail = ""` on the node about to be
removed, which cannot affect the remaining tree; no branch of the source
re-attaches the removed node's tail anywhere. -/
def Node.stripElems (tag : String) : Node → Node
  | .mk t a tx tl cs => .mk t a tx tl (stripElemsList tag cs)

/-- `Node.stripElems` over a sibling list: matching nodes are dropped with
their whole subtree (and their tail), others are processed recursively. -/
def stripElemsList (tag : String) : List Node → List Node
  | [] => []
  | c :: cs =>
    if c.tag = Tag.name tag then stripElemsList tag cs
    else Node.stripElems tag c :: stripElemsList tag cs

end

/-- One selector step of `strip_elements`: a string selector runs the
removal above; the comment sentinel falls into the
`elif isinstance(tag, ET.Element)` branch, and since `ET.Comment` is a factory
function and not an `Element` instance that test is False, so nothing at all
happens for the comment selector. -/
def stripElementsSel (_withTail : Bool) (n : Node) (sel : Selector) : Node :=
  match sel with
  | .tagName s => n.stripElems s
  | .commentSentinel => n

/-- `strip_elements(tree_or_element, *tag_names, with_tail=True)` (242-287):
the scope root is `getroot()` for a tree and the value itself otherwise; the
parent map `{c: p for p in root.iter() for c in p}` is built before any
selector is processed, so a value without the element interface raises
`AttributeError` there, before any mutation; then each selector is processed
in order. -/
def stripElements (scope : Scope) (sels : List Selector) (withTail : Bool) :
    Except PyErr Scope :=
  match scope with
  | .element n => .ok (.element (sels.foldl (stripElementsSel withTail) n))
  | .tree n => .ok (.tree (sels.foldl (stripElementsSel withTail) n))
  | .other ty => .error (.attributeError (ty ++ " object has no attribute iter"))

/-- Tail of the last comment child, if any comment child exists.  Models the
sequential `parent.text = element.tail` assignments of the comment branch of
`strip_tags`: the descendant comments are visited in document order, so among
the comment children of one parent the last assignment wins. -/
def lastCommentTail : List Node → Option (Option String)
  | [] => none
  | c :: cs =>
    match lastCommentTail cs with
    | some v => some v
    | none => if c.tag = Tag.comment then some c.tail else none

mutual

/-- The comment branch of `strip_tags` (321-327): for every descendant
(`root.findall(".//")`, which the path compiler reads as `.//*`) whose tag is
the comment sentinel, the source sets `parent.text = element.tail` and then
removes the comment from the parent.  Note this OVERWRITES the parent's text
with the comment's tail (it does not append), and no child splicing happens
(comments have no children). -/
def Node.stripTagsComment : Node → Node
  | .mk t a tx tl cs =>
    .mk t a
      (match lastCommentTail cs with
        | some v => v
        | none => tx)
      tl (stripTagsCommentList cs)

/-- `Node.stripTagsComment` over a sibling list: comment children are dropped,
element children are processed recursively. -/
def stripTagsCommentList : List Node → List Node
  | [] => []
  | c :: cs =>
    if c.tag = Tag.comment then stripTagsCommentList cs
    else Node.stripTagsComment c :: stripTagsCommentList cs

end

/-- One selector step of `strip_tags` (290-327): the loop body only handles
`if tag == ET.Comment`; there is NO branch for string selectors (the local
`tags_to_remove` dict is created and never used), so a string selector does
nothing. -/
def stripTagsSel (n : Node) (sel : Selector) : Node :=
  match sel with
  | .tagName _ => n
  | .commentSentinel => n.stripTagsComment

/-- `strip_tags(tree_or_element, *tag_names)`: same scope handling as
`strip_elements` (parent map built from `root.iter()` before the loop, hence
`AttributeError` on a non-element value, before any mutation). -/
def stripTags (scope : Scope) (sels : List Selector) : Except PyErr Scope :=
  match scope with
  | .element n => .ok (.element (sels.foldl stripTagsSel n))
  | .tree n => .ok (.tree (sels.foldl stripTagsSel n))
  | .other ty => .error (.attributeError (ty ++ " object has no attribute iter"))

/-- Observation used for the failure-semantics claims: is the outcome the
explicit invalid-argument (`TypeError`) condition? -/
def isInvalidArg : Except PyErr Scope → Bool
  | .error (.typeError _) => true
  | _ => false

/-- Observation: did the operation fail at all? -/
def isErr : Except PyErr Scope → Bool
  | .error _ => true
  | .ok _ => false

/-!
Indenter (spec section 4.5), from `_pretty_print` (etree.py 135-145) and
`indent` (147-168).

`indent` delegates to the standard library's indenting routine and only falls
back to the repository's own `_pretty_print` when that routine is absent.
Both are modelled: `prettyPrint` is the faithful embedding of
`_pretty_print`, and `specIndent` models the delegate.

In `_pretty_print(current, parent, index, depth)` no assignment ever reads a
`text`/`tail` value, so the in-place assignments commute and the net effect
is functional in the structure alone: a node at depth d with at least one
child gets `text = "\n" + "  "*(d+1)` (assigned by its first child's call);
every child except the last gets `tail = "\n" + "  "*(d+1)` (assigned by the
next child's call); the last child gets `tail = "\n" + "  "*d` (assigned in
its own call).  The call on the scope root has `parent=None`, so the root's
own tail is never assigned.  The `space` and `level` arguments of `indent`
are not forwarded to `_pretty_print`, which hard-codes two-space units. -/

/-- The whitespace string `"\n" + "  " * k` of `_pretty_print`. -/
def ppWs (k : Nat) : String :=
  "\n" ++ String.join (List.replicate k "  ")

mutual

/-- Faithful embedding of `_pretty_print`, for a node at depth `d`. -/
def prettyPrint (d : Nat) : Node → Node
  | .mk t a tx tl cs =>
    match cs with
    | [] => .mk t a tx tl []
    | c :: rest => .mk t a (some (ppWs (d + 1))) tl (prettyPrintList (d + 1) (c :: rest))

/-- Children at depth `d`: all but the last get tail `ppWs d`, the last gets
tail `ppWs (d - 1)`. -/
def prettyPrintList (d : Nat) : List Node → List Node
  | [] => []
  | [c] => [(prettyPrint d c).withTail (some (ppWs (d - 1)))]
  | c :: c2 :: cs =>
    (prettyPrint d c).withTail (some (ppWs d)) :: prettyPrintList d (c2 :: cs)

end

/-- True when the optional string carries any non-whitespace character. -/
def hasNonWs : Option String → Bool
  | none => false
  | some s => s.toList.any (fun c => !c.isWhitespace)

/-- The whitespace string: a newline followed by `unit` repeated `k` times. -/
def indentWs (unit : String) (k : Nat) : String :=
  "\n" ++ String.join (List.replicate k unit)

mutual

/-- Modelled from the spec: the primary delegate of `indent` (the standard
library's indenting routine) is not part of this repository; section 4.5
describes it.  For a node at depth `d` with children: set its `text` to a
newline plus `unit` repeated `d+1` times unless the text already carries
non-whitespace content; set each child's tail to a newline plus `unit`
repeated `d+1` times, except the last child, whose tail aligns the parent's
closing at depth `d`.  The scope root's own tail is never modified. -/
def specIndent (unit : String) (d : Nat) : Node → Node
  | .mk t a tx tl cs =>
    match cs with
    | [] => .mk t a tx tl []
    | c :: rest =>
      .mk t a (if hasNonWs tx then tx else some (indentWs unit (d + 1))) tl
        (specIndentList unit (d + 1) (c :: rest))

/-- Children at depth `d` under `specIndent`. -/
def specIndentList (unit : String) (d : Nat) : List Node → List Node
  | [] => []
  | [c] => [(specIndent unit d c).withTail (some (indentWs unit (d - 1)))]
  | c :: c2 :: cs =>
    (specIndent unit d c).withTail (some (indentWs unit d)) :: specIndentList unit d (c2 :: cs)

end

mutual

/-- Erase every `text`/`tail` field in a subtree, keeping tags, attributes and
the child structure: two nodes with equal `stripWs` images differ at most in
character data. -/
def Node.stripWs : Node → Node
  | .mk t a _ _ cs => .mk t a none none (stripWsList cs)

/-- `Node.stripWs` over a forest. -/
def stripWsList : List Node → List Node
  | [] => []
  | c :: cs => Node.stripWs c :: stripWsList cs

end

/-- The effect of `tostring(element_or_tree, method, encoding, pretty_print)`
(etree.py 355-358) on the caller's tree: `if pretty_print:` the tree is
indented IN PLACE by the delegate indenter (with its defaults: two-space unit,
level 0) before serializing; with `pretty_print=False` the tree is untouched.
The serializer itself is an external collaborator (spec section 6) and does
not modify the tree, so only the tree effect is modelled. -/
def tostringTreeEffect (prettyPrintFlag : Bool) (n : Node) : Node :=
  if prettyPrintFlag then specIndent "  " 0 n else n

/-!
TagMasker (spec section 4.1), from `pre_process` (etree.py 90-98) and
`post_process` (101-106).

`pre_process` scans the raw text with the regular expression
`(<\/?)([a-zA-Z_][\w.-]*)(>)`: an opening delimiter `<` with an optional `/`,
a tag-name token, and an immediate `>`.  `re.findall`/`re.sub` scan left to
right taking the earliest match at each position and continuing after it; at
a non-matching position they advance one character.  Because the name-token
characters never include `>`, greedy matching with backtracking reduces to:
take the maximal run of name characters and require the next character to be
`>`.  The scanner below (`scanTags`) produces the induced decomposition of
the text into raw characters and `<name>`/`</name>` occurrences; `render`
maps it back to text, and masking rewrites only the name of each occurrence,
exactly as `re.sub` replaces exactly the matched spans.

The distinct tag names are collected into a set and enumerated
(`{tag: f"TAG{index}" for index, tag in enumerate(tags)}`).  A Python set
iterates in an unspecified order; the model enumerates `List.dedup` of the
occurrence list.  Every property proved below depends only on the mapping
having the distinct scanned names as keys and pairwise-distinct placeholders
`TAG<i>` as values, so it holds for every enumeration order.
-/

/-- First character of a tag-name token: `[a-zA-Z_]`. -/
def isNameStart (c : Char) : Bool := c.isAlpha || c = '_'

/-- Subsequent characters of a tag-name token: `[\w.-]` (ASCII word
characters, dot, hyphen). -/
def isNameChar (c : Char) : Bool := c.isAlphanum || c = '_' || c = '.' || c = '-'

/-- A piece of the scanned text: a raw character, or one `<name>` / `</name>`
occurrence. -/
inductive Chunk where
  | raw (c : Char)
  | tag (closing : Bool) (nm : List Char)
deriving DecidableEq, Repr

/-- Given the text after a `<`, try to read `name>` where the name is a
maximal token `[a-zA-Z_][\w.-]*`; return the name and the text after `>`. -/
def tryName (r1 : List Char) : Option (List Char × List Char) :=
  match r1 with
  | [] => none
  | c :: r2 =>
    if isNameStart c && ((r2.dropWhile isNameChar).head? == some '>') then
      some (c :: r2.takeWhile isNameChar, (r2.dropWhile isNameChar).tail)
    else none

/-- Given the text after a `<`, read the optional `/` and then the name: one
match of the masking regular expression.  (A name never starts with `/`, so
consuming the `/` when present loses no match.) -/
def tryTag (cs : List Char) : Option (Bool × List Char × List Char) :=
  if cs.head? = some '/' then (tryName cs.tail).map (fun p => (true, p.1, p.2))
  else (tryName cs).map (fun p => (false, p.1, p.2))

/-- Fueled left-to-right scan; each step consumes at least one character, so
fuel equal to the length of the input suffices (`scanTags`). -/
def scanTagsF : Nat → List Char → List Chunk
  | 0, _ => []
  | _ + 1, [] => []
  | fuel + 1, c :: cs =>
    if c = '<' then
      match tryTag cs with
      | some (cl, nm, rest) => .tag cl nm :: scanTagsF fuel rest
      | none => .raw c :: scanTagsF fuel cs
    else .raw c :: scanTagsF fuel cs

/-- Decomposition of the text into raw characters and regex matches, in
left-to-right order: matches can start only at a `<`. -/
def scanTags (s : List Char) : List Chunk := scanTagsF s.length s

/-- Text of a chunk list: raw characters as they are, a tag occurrence as
`<name>` or `</name>`. -/
def render (chunks : List Chunk) : List Char :=
  chunks.flatMap fun ch =>
    match ch with
    | .raw c => [c]
    | .tag closing nm => '<' :: (if closing then ['/'] else []) ++ nm ++ ['>']

/-- The tag-name occurrences of a chunk list, in order. -/
def tagNames (chunks : List Chunk) : List (List Char) :=
  chunks.filterMap fun ch =>
    match ch with
    | .raw _ => none
    | .tag _ nm => some nm

/-- A wellformed tag-name token: nonempty, first character `[a-zA-Z_]`, rest
`[\w.-]`. -/
def validName : List Char → Prop
  | [] => False
  | c :: rest => isNameStart c = true ∧ ∀ x ∈ rest, isNameChar x = true

/-- Decimal digit characters. -/
def digitChar (n : Nat) : Char :=
  match n with
  | 0 => '0' | 1 => '1' | 2 => '2' | 3 => '3' | 4 => '4'
  | 5 => '5' | 6 => '6' | 7 => '7' | 8 => '8' | _ => '9'

/-- Fueled decimal rendering; fuel `n + 1` always suffices because the
argument at least halves each step. -/
def natToDecF : Nat → Nat → List Char
  | 0, _ => []
  | fuel + 1, n =>
    if n < 10 then [digitChar n]
    else natToDecF fuel (n / 10) ++ [digitChar (n % 10)]

/-- Decimal rendering of a natural number (the digits of `f"{index}"`). -/
def natToDec (n : Nat) : List Char := natToDecF (n + 1) n

/-- Value of a digit character. -/
def digitVal (c : Char) : Nat := c.toNat - 48

/-- Decimal parsing, the left inverse used to prove `natToDec` injective. -/
def decVal (ds : List Char) : Nat :=
  ds.foldl (fun a c => 10 * a + digitVal c) 0

/-- The placeholder `f"TAG{index}"` the masking maps the tag with the given
index to. -/
def placeholder (i : Nat) : List Char :=
  'T' :: 'A' :: 'G' :: natToDec i

/-- The name-to-placeholder mapping `pre_process` builds: the distinct scanned
tag names, enumerated. -/
def buildMapping (names : List (List Char)) : List (List Char × List Char) :=
  names.enum.map fun p => (p.2, placeholder p.1)

/-- Replacement of one scanned occurrence: the matched name is rewritten
through the mapping (`f"{m.group(1)}{mapping[m.group(2)]}{m.group(3)}"`; every
scanned name is a key of the mapping because the mapping is built from the
same scan, so the default branch is unreachable). -/
def maskChunk (m : List (List Char × List Char)) : Chunk → Chunk
  | .raw c => .raw c
  | .tag closing nm => .tag closing ((List.lookup nm m).getD nm)

/-- `pre_process(html_content)`: the rewritten text and the mapping. -/
def preProcess (s : List Char) : List Char × List (List Char × List Char) :=
  let chunks := scanTags s
  let m := buildMapping (tagNames chunks).dedup
  (render (chunks.map (maskChunk m)), m)

/-- One tag rewrite of `post_process`: the parsed tag's name is uppercased and
looked up in the reverse mapping; on a hit the tag is renamed to the original
name, otherwise it is left untouched. -/
def postProcessTag (m : List (List Char × List Char)) (nm : List Char) : List Char :=
  let rev := m.map fun kv => (kv.2, kv.1)
  match List.lookup (nm.map Char.toUpper) rev with
  | some orig => orig
  | none => nm

/-!
Theorems.  Each claim of the specification audit is settled by one theorem
below (plus a counterexample theorem where the claim fails on the source).
-/

/-- C3, divergence witness: `strip_elements` with `with_tail=False` discards
the removed node's tail instead of preserving it.  On
`<root><a/>T<b/></root>`, removing `"a"` with `with_tail=False` yields
`<root><b/></root>`: the tail `"T"` is gone from the character-data stream
(which becomes empty), and the result is identical to the `with_tail=True`
run, the flag having no effect on the remaining tree. -/
theorem c3_with_tail_false_discards_tail :
    stripElements
        (Scope.element (.mk (.name "root") [] none none
          [.mk (.name "a") [] none (some "T") [], .mk (.name "b") [] none none []]))
        [.tagName "a"] false
      = .ok (.element (.mk (.name "root") [] none none [.mk (.name "b") [] none none []]))
    ∧ stripElements
        (Scope.element (.mk (.name "root") [] none none
          [.mk (.name "a") [] none (some "T") [], .mk (.name "b") [] none none []]))
        [.tagName "a"] true
      = .ok (.element (.mk (.name "root") [] none none [.mk (.name "b") [] none none []]))
    ∧ (Node.mk (.name "root") [] none none
        [.mk (.name "a") [] none (some "T") [], .mk (.name "b") [] none none []]).charData
      = "T"
    ∧ (Node.mk (.name "root") [] none none [.mk (.name "b") [] none none []]).charData
      = "" :=
  ⟨by decide, by decide, by decide, by decide⟩

/-- C4, divergence witness: `strip_elements` with the comment sentinel
removes nothing, because the sentinel (a factory function) is not an
`Element` instance and the comment branch is dead code.  On
`<root><!--c--><b/></root>` the tree is returned unchanged, the comment still
in place. -/
theorem c4_comment_selector_removes_nothing :
    stripElements
        (Scope.element (.mk (.name "root") [] none none
          [.mk Tag.comment [] (some "c") none [], .mk (.name "b") [] none none []]))
        [.commentSentinel] true
      = .ok (.element (.mk (.name "root") [] none none
          [.mk Tag.comment [] (some "c") none [], .mk (.name "b") [] none none []]))
    ∧ (Node.mk (.name "root") [] none none
        [.mk Tag.comment [] (some "c") none [], .mk (.name "b") [] none none []]).countComments
      = 1 :=
  ⟨by decide, by decide⟩

/-- C5, divergence witness: `strip_tags` does not splice; its comment branch
OVERWRITES the parent's text with the comment's tail.  On
`<root>A<!--c-->B</root>` the comment selector turns the character-data
stream `"AB"` into `"B"` (the parent's text `"A"` is lost).  Moreover a
string selector does nothing at all: stripping `"child"` from
`<root><child>text</child></root>` returns the tree unchanged. -/
theorem c5_strip_tags_clobbers_text :
    stripTags
        (Scope.element (.mk (.name "root") [] (some "A") none
          [.mk Tag.comment [] (some "c") (some "B") []]))
        [.commentSentinel]
      = .ok (.element (.mk (.name "root") [] (some "B") none []))
    ∧ (Node.mk (.name "root") [] (some "A") none
        [.mk Tag.comment [] (some "c") (some "B") []]).charData = "AB"
    ∧ (Node.mk (.name "root") [] (some "B") none []).charData = "B"
    ∧ stripTags
        (Scope.element (.mk (.name "root") [] none none
          [.mk (.name "child") [] (some "text") none []]))
        [.tagName "child"]
      = .ok (.element (.mk (.name "root") [] none none
          [.mk (.name "child") [] (some "text") none []])) :=
  ⟨by decide, by decide, by decide, by decide⟩

/-- C7, counterexample: on a value that is neither a tree nor a node,
`strip_elements` (and `strip_tags`) does NOT signal the invalid-argument
(`TypeError`) condition the claim requires for all three operations: it has
no type check and fails with an `AttributeError` when the parent map tries
`root.iter()`. -/
theorem c7_counterexample :
    isInvalidArg (stripElements (Scope.other "int") [.tagName "x"] true) = false
    ∧ isErr (stripElements (Scope.other "int") [.tagName "x"] true) = true
    ∧ isInvalidArg (stripTags (Scope.other "int") [.tagName "x"]) = false
    ∧ isErr (stripTags (Scope.other "int") [.tagName "x"]) = true
    ∧ isInvalidArg (stripAttributes (Scope.other "int") ["x"]) = true :=
  ⟨rfl, rfl, rfl, rfl, rfl⟩

/-- C7, amended: only `strip_attributes` performs an explicit scope-type check
and raises the invalid-argument (`TypeError`) condition; `strip_elements` and
`strip_tags` fail on such a scope with an `AttributeError` from `root.iter()`.
In all three operations the failure happens before any mutation (no tree is
produced), and a proper element or tree scope never triggers either error. -/
theorem c7_invalid_scope_behavior :
    (∀ ty pats, stripAttributes (Scope.other ty) pats
      = .error (.typeError
        ("tree_or_element should be a type of Element or ElementTree, but found " ++ ty)))
    ∧ (∀ ty sels wt, stripElements (Scope.other ty) sels wt
        = .error (.attributeError (ty ++ " object has no attribute iter")))
    ∧ (∀ ty sels, stripTags (Scope.other ty) sels
        = .error (.attributeError (ty ++ " object has no attribute iter")))
    ∧ (∀ n pats, isErr (stripAttributes (Scope.element n) pats) = false)
    ∧ (∀ n pats, isErr (stripAttributes (Scope.tree n) pats) = false)
    ∧ (∀ n sels wt, isErr (stripElements (Scope.element n) sels wt) = false)
    ∧ (∀ n sels wt, isErr (stripElements (Scope.tree n) sels wt) = false)
    ∧ (∀ n sels, isErr (stripTags (Scope.element n) sels) = false)
    ∧ (∀ n sels, isErr (stripTags (Scope.tree n) sels) = false) :=
  ⟨fun _ _ => rfl, fun _ _ _ => rfl, fun _ _ => rfl, fun _ _ => rfl, fun _ _ => rfl,
    fun _ _ _ => rfl, fun _ _ _ => rfl, fun _ _ => rfl, fun _ _ => rfl⟩

/-- C10: serializing with `pretty_print=True` rewrites the tree in place
through the delegate indenter before producing output, so the caller's tree
is in general changed (witnessed on `<root><child>text</child></root>`,
whose root text becomes an indentation string); with `pretty_print=False`
the tree is left exactly as it was. -/
theorem c10_tostring_pretty_print_mutates :
    (∀ n, tostringTreeEffect false n = n)
    ∧ (∀ n, tostringTreeEffect true n = specIndent "  " 0 n)
    ∧ (tostringTreeEffect true (.mk (.name "root") [] none none
        [.mk (.name "child") [] (some "text") none []])).text = some "\n  "
    ∧ (Node.mk (.name "root") [] none none
        [.mk (.name "child") [] (some "text") none []]).text = none :=
  ⟨fun _ => rfl, fun _ => rfl, by decide, by decide⟩

/-- C1, counterexample: with a single element as scope, `strip_attributes`
removes the matching attribute from the scope root itself and from no
descendant — the exact opposite of the claim.  On
`<root a="1"><c a="2"/></root>` with pattern `"a"`, the root loses `a="1"`
while the child keeps `a="2"`. -/
theorem c1_counterexample :
    stripAttributes
        (Scope.element (.mk (.name "root") [("a", "1")] none none
          [.mk (.name "c") [("a", "2")] none none []]))
        ["a"]
      = .ok (.element (.mk (.name "root") [] none none
          [.mk (.name "c") [("a", "2")] none none []]))
    ∧ ([("a", "2")] : List (String × String)) ≠ []
    ∧ ([] : List (String × String)) ≠ [("a", "1")] :=
  ⟨by decide, by decide, by decide⟩

theorem erasePKey_eq_filter (k : String) :
    ∀ acc : List (String × String), (acc.map Prod.fst).Nodup →
      acc.eraseP (fun kv => kv.1 == k) = acc.filter (fun kv => !(kv.1 == k)) := by
  intro acc
  induction acc with
  | nil => intro _; rfl
  | cons hd rest ih =>
    intro hnd
    rw [List.map_cons, List.nodup_cons] at hnd
    obtain ⟨hni, hnd2⟩ := hnd
    rw [List.eraseP_cons, List.filter_cons]
    by_cases hk : hd.1 = k
    · have hb : (hd.1 == k) = true := by simp [hk]
      simp only [hb, cond_true, Bool.not_true, Bool.false_eq_true, if_false]
      symm
      rw [List.filter_eq_self]
      intro kv hkv
      have hne : kv.1 ≠ k := by
        intro he
        exact hni (by rw [hk, ← he]; exact List.mem_map_of_mem Prod.fst hkv)
      simp [hne]
    · have hb : (hd.1 == k) = false := by simp [hk]
      simp only [hb, cond_false, Bool.not_false, if_true]
      rw [ih hnd2]

theorem foldl_erase_eq_filter (pats : List String) :
    ∀ (ks : List String) (acc : List (String × String)), (acc.map Prod.fst).Nodup →
      ks.foldl
          (fun acc k =>
            if matchesAny pats k then acc.eraseP (fun kv => kv.1 == k) else acc)
          acc
        = acc.filter (fun kv => !(ks.contains kv.1 && matchesAny pats kv.1)) := by
  intro ks
  induction ks with
  | nil =>
    intro acc _
    rw [List.foldl_nil]
    symm
    rw [List.filter_eq_self]
    intro kv _
    rfl
  | cons k ks ih =>
    intro acc hnd
    rw [List.foldl_cons]
    by_cases hm : matchesAny pats k = true
    · rw [if_pos hm, erasePKey_eq_filter k acc hnd]
      have hnd2 : ((acc.filter (fun kv => !(kv.1 == k))).map Prod.fst).Nodup :=
        hnd.sublist (List.Sublist.map Prod.fst (List.filter_sublist acc))
      rw [ih _ hnd2, List.filter_filter]
      apply List.filter_congr
      intro kv _
      by_cases hkv : kv.1 = k
      · have hb : (kv.1 == k) = true := by simp [hkv]
        rw [List.contains_cons]
        simp [hb, hkv, hm]
      · have hb : (kv.1 == k) = false := by simp [hkv]
        rw [List.contains_cons]
        simp [hb]
    · rw [if_neg hm, ih acc hnd]
      apply List.filter_congr
      intro kv _
      by_cases hkv : kv.1 = k
      · have hmf : matchesAny pats kv.1 = false := by
          rw [hkv]
          exact Bool.eq_false_iff.mpr hm
        simp [hmf]
      · have hb : (kv.1 == k) = false := by simp [hkv]
        rw [List.contains_cons]
        simp [hb]

theorem removeAttribute_eq_filter (pats : List String) (attrs : List (String × String))
    (h : (attrs.map Prod.fst).Nodup) :
    removeAttribute pats attrs = attrs.filter (fun kv => !matchesAny pats kv.1) := by
  rw [removeAttribute, foldl_erase_eq_filter pats (attrs.map Prod.fst) attrs h]
  apply List.filter_congr
  intro kv hkv
  have hmem : (attrs.map Prod.fst).contains kv.1 = true := by
    rw [List.contains_eq_any_beq]
    rw [List.any_eq_true]
    exact ⟨kv.1, List.mem_map_of_mem Prod.fst hkv, by simp⟩
  rw [hmem]
  simp

/-- C1, amended: `strip_attributes` removes every attribute matched by some
pattern from the scope element itself when the scope is a single element
(descendants untouched), and from every node of the tree, the root included,
when the scope is a whole tree.  On each processed node an attribute survives
exactly when no supplied pattern matches its name (keys being distinct, as in
a Python dict). -/
theorem c1_strip_attributes_scope :
    (∀ pats t a tx tl cs, stripAttributes (Scope.element (.mk t a tx tl cs)) pats
        = .ok (.element (.mk t (removeAttribute pats a) tx tl cs)))
    ∧ (∀ pats n, stripAttributes (Scope.tree n) pats = .ok (.tree (n.removeAttrsAll pats)))
    ∧ (∀ pats t a tx tl cs, Node.removeAttrsAll pats (.mk t a tx tl cs)
        = .mk t (removeAttribute pats a) tx tl (removeAttrsAllList pats cs))
    ∧ (∀ pats attrs, (attrs.map Prod.fst).Nodup →
        removeAttribute pats attrs = attrs.filter (fun kv => !matchesAny pats kv.1)) :=
  ⟨fun _ _ _ _ _ _ => rfl, fun _ _ => rfl, fun _ _ _ _ _ _ => rfl,
    removeAttribute_eq_filter⟩

/-- C1, witness for the amended theorem at a concrete input. -/
theorem c1_witness :
    removeAttribute ["att*"] [("attr", "1"), ("other", "2")]
      = [("attr", "1"), ("other", "2")].filter (fun kv => !matchesAny ["att*"] kv.1) :=
  c1_strip_attributes_scope.2.2.2 ["att*"] [("attr", "1"), ("other", "2")] (by decide)

theorem plainChar_ne_star {c : Char} (h : plainChar c = true) : c ≠ '*' :=
  fun he => absurd h (by rw [he]; decide)

theorem plainChar_ne_dot {c : Char} (h : plainChar c = true) : c ≠ '.' :=
  fun he => absurd h (by rw [he]; decide)

theorem compileGlob_no_star {p : List Char} (h : '*' ∉ p) : compileGlob p = p := by
  induction p with
  | nil => rfl
  | cons c cs ih =>
    rw [List.mem_cons] at h
    push_neg at h
    obtain ⟨h1, h2⟩ := h
    rw [compileGlob, List.flatMap_cons]
    rw [if_neg (fun he => h1 he.symm)]
    rw [List.singleton_append]
    show c :: compileGlob cs = c :: cs
    rw [ih h2]

theorem compileGlob_append (a b : List Char) :
    compileGlob (a ++ b) = compileGlob a ++ compileGlob b := by
  rw [compileGlob, compileGlob, compileGlob, List.flatMap_append]

theorem compileGlob_star_cons (suf : List Char) :
    compileGlob ('*' :: suf) = '.' :: '*' :: compileGlob suf := by
  rw [compileGlob, List.flatMap_cons, if_pos rfl]
  rfl

theorem ratoms_plain_append {pre : List Char} (q : List Char)
    (h : ∀ c ∈ pre, plainChar c = true) :
    ratoms (pre ++ q) = pre.map RAtom.lit ++ ratoms q := by
  induction pre with
  | nil => rfl
  | cons c pre2 ih =>
    have hc : c ≠ '.' := plainChar_ne_dot (h c (List.mem_cons_self c pre2))
    have h2 : ∀ x ∈ pre2, plainChar x = true :=
      fun x hx => h x (List.mem_cons_of_mem c hx)
    rw [List.cons_append]
    cases hpq : pre2 ++ q with
    | nil =>
      obtain ⟨hp2, hq⟩ := List.append_eq_nil.mp hpq
      subst hp2
      subst hq
      show (if c = '.' then [RAtom.anyChar] else [RAtom.lit c]) = _
      rw [if_neg hc]
      rfl
    | cons d rest =>
      show (if c = '.' then
          if d = '*' then RAtom.anyStar :: ratoms rest else RAtom.anyChar :: ratoms (d :: rest)
        else RAtom.lit c :: ratoms (d :: rest)) = _
      rw [if_neg hc, ← hpq, ih h2]
      rfl

theorem ratoms_plain {p : List Char} (h : ∀ c ∈ p, plainChar c = true) :
    ratoms p = p.map RAtom.lit := by
  have := ratoms_plain_append [] h
  rwa [List.append_nil, show ratoms [] = [] from rfl, List.append_nil] at this

theorem tryAllSuffixes_iff (f : List Char → Bool) :
    ∀ s, (tryAllSuffixes f s = true ↔ ∃ a b, s = a ++ b ∧ f b = true) := by
  intro s
  induction s with
  | nil =>
    rw [tryAllSuffixes]
    constructor
    · intro h; exact ⟨[], [], rfl, h⟩
    · rintro ⟨a, b, hab, hf⟩
      obtain ⟨ha, hb⟩ := List.append_eq_nil.mp hab.symm
      subst ha; subst hb; exact hf
  | cons c s2 ih =>
    rw [tryAllSuffixes, Bool.or_eq_true, ih]
    constructor
    · rintro (h | ⟨a, b, hab, hf⟩)
      · exact ⟨[], c :: s2, rfl, h⟩
      · exact ⟨c :: a, b, by rw [hab]; rfl, hf⟩
    · rintro ⟨a, b, hab, hf⟩
      cases a with
      | nil =>
        left
        rw [List.nil_append] at hab
        rw [← hab] at hf
        exact hf
      | cons a1 a2 =>
        right
        rw [List.cons_append] at hab
        injection hab with h1 h2
        exact ⟨a2, b, h2, hf⟩

theorem reMatchA_lit_append (p : List Char) (q : List RAtom) :
    ∀ s, (reMatchA (p.map RAtom.lit ++ q) s = true ↔
      ∃ t, s = p ++ t ∧ reMatchA q t = true) := by
  induction p with
  | nil =>
    intro s
    rw [List.map_nil, List.nil_append]
    constructor
    · intro h; exact ⟨s, rfl, h⟩
    · rintro ⟨t, ht, hm⟩; rw [ht]; exact hm
  | cons c p2 ih =>
    intro s
    rw [List.map_cons, List.cons_append]
    cases s with
    | nil =>
      rw [show reMatchA (RAtom.lit c :: (p2.map RAtom.lit ++ q)) [] = false from rfl]
      constructor
      · intro h; cases h
      · rintro ⟨t, ht, -⟩; cases ht
    | cons c2 s2 =>
      rw [show reMatchA (RAtom.lit c :: (p2.map RAtom.lit ++ q)) (c2 :: s2)
          = (decide (c = c2) && reMatchA (p2.map RAtom.lit ++ q) s2) from rfl]
      rw [Bool.and_eq_true, decide_eq_true_eq, ih s2]
      constructor
      · rintro ⟨hc, t, ht, hm⟩
        exact ⟨t, by rw [hc, ht]; rfl, hm⟩
      · rintro ⟨t, ht, hm⟩
        rw [List.cons_append] at ht
        injection ht with h1 h2
        exact ⟨h1.symm, t, h2, hm⟩

theorem reMatchA_lit_only (p : List Char) :
    ∀ s, (reMatchA (p.map RAtom.lit) s = true ↔ ∃ t, s = p ++ t) := by
  intro s
  have := reMatchA_lit_append p [] s
  rw [List.append_nil] at this
  rw [this]
  constructor
  · rintro ⟨t, ht, -⟩; exact ⟨t, ht⟩
  · rintro ⟨t, ht⟩; exact ⟨t, ht, rfl⟩

theorem reMatch_plain_iff (p : List Char) (h : ∀ c ∈ p, plainChar c = true) :
    ∀ s, (reMatch (compileGlob p) s = true ↔ ∃ t, s = p ++ t) := by
  intro s
  have hns : '*' ∉ p := fun hm => absurd (h '*' hm) (by decide)
  rw [reMatch, compileGlob_no_star hns, ratoms_plain h, reMatchA_lit_only]

theorem reMatch_star_iff (pre suf : List Char)
    (hpre : ∀ c ∈ pre, plainChar c = true) (hsuf : ∀ c ∈ suf, plainChar c = true) :
    ∀ s, (reMatch (compileGlob (pre ++ '*' :: suf)) s = true ↔
      ∃ mid rest, s = pre ++ mid ++ suf ++ rest) := by
  intro s
  have hnpre : '*' ∉ pre := fun hm => absurd (hpre '*' hm) (by decide)
  have hnsuf : '*' ∉ suf := fun hm => absurd (hsuf '*' hm) (by decide)
  rw [reMatch, compileGlob_append, compileGlob_no_star hnpre, compileGlob_star_cons,
    compileGlob_no_star hnsuf]
  rw [ratoms_plain_append ('.' :: '*' :: suf) hpre]
  rw [show ratoms ('.' :: '*' :: suf) = RAtom.anyStar :: ratoms suf from by
    rw [ratoms]; rfl]
  rw [ratoms_plain hsuf]
  rw [reMatchA_lit_append]
  constructor
  · rintro ⟨t, ht, hm⟩
    rw [show reMatchA (RAtom.anyStar :: suf.map RAtom.lit) t
        = tryAllSuffixes (reMatchA (suf.map RAtom.lit)) t from rfl] at hm
    rw [tryAllSuffixes_iff] at hm
    obtain ⟨a, b, hab, hf⟩ := hm
    rw [reMatchA_lit_only] at hf
    obtain ⟨r, hr⟩ := hf
    refine ⟨a, r, ?_⟩
    rw [ht, hab, hr]
    simp [List.append_assoc]
  · rintro ⟨mid, rest, hs⟩
    refine ⟨mid ++ suf ++ rest, by rw [hs]; simp [List.append_assoc], ?_⟩
    rw [show reMatchA (RAtom.anyStar :: suf.map RAtom.lit) (mid ++ suf ++ rest)
        = tryAllSuffixes (reMatchA (suf.map RAtom.lit)) (mid ++ suf ++ rest) from rfl]
    rw [tryAllSuffixes_iff]
    refine ⟨mid, suf ++ rest, by simp [List.append_assoc], ?_⟩
    rw [reMatchA_lit_only]
    exact ⟨rest, rfl⟩

theorem matchesAny_eq_any (pats : List String) (k : String) :
    matchesAny pats k = pats.any (fun p => globMatch p k) := by
  rw [matchesAny]
  induction pats with
  | nil => rfl
  | cons p ps ih =>
    rw [List.find?_cons, List.any_cons]
    by_cases hp : globMatch p k = true
    · rw [hp]
      simp
    · have hp2 : globMatch p k = false := Bool.eq_false_iff.mpr hp
      rw [hp2]
      simp only [Bool.false_or]
      exact ih

theorem ratoms_glob_append (q : List Char) (hq : q.head? ≠ some '*') :
    ∀ pre : List Char, '*' ∉ pre → ratoms (pre ++ q) = pre.map atomOf ++ ratoms q := by
  intro pre
  induction pre with
  | nil => intro _; rfl
  | cons c pre2 ih =>
    intro hstar
    have hstar2 : '*' ∉ pre2 := fun hm => hstar (List.mem_cons_of_mem c hm)
    rw [List.cons_append]
    cases hpq : pre2 ++ q with
    | nil =>
      obtain ⟨hp2, hq0⟩ := List.append_eq_nil.mp hpq
      subst hp2
      subst hq0
      show (if c = '.' then [RAtom.anyChar] else [RAtom.lit c]) = _
      by_cases hc : c = '.'
      · rw [if_pos hc]
        simp [atomOf, hc]
        rfl
      · rw [if_neg hc]
        simp [atomOf, hc]
        rfl
    | cons d rest =>
      have hd : d ≠ '*' := by
        intro he
        cases pre2 with
        | nil =>
          rw [List.nil_append] at hpq
          apply hq
          rw [hpq, List.head?_cons, he]
        | cons e pre3 =>
          rw [List.cons_append] at hpq
          injection hpq with h1 h2
          apply hstar2
          rw [h1, he]
          exact List.mem_cons_self _ _
      show (if c = '.' then
          if d = '*' then RAtom.anyStar :: ratoms rest else RAtom.anyChar :: ratoms (d :: rest)
        else RAtom.lit c :: ratoms (d :: rest)) = _
      by_cases hc : c = '.'
      · rw [if_pos hc, if_neg hd, ← hpq, ih hstar2]
        simp [atomOf, hc]
      · rw [if_neg hc, ← hpq, ih hstar2]
        simp [atomOf, hc]

theorem ratoms_glob {p : List Char} (hstar : '*' ∉ p) : ratoms p = p.map atomOf := by
  have h := ratoms_glob_append [] (by simp) p hstar
  rwa [List.append_nil, show ratoms [] = [] from rfl, List.append_nil] at h

theorem reMatchA_atom_append (p : List Char) (q : List RAtom) :
    ∀ s, (reMatchA (p.map atomOf ++ q) s = true ↔
      ∃ t u, s = t ++ u ∧ List.Forall₂ charMatchSpec p t ∧ reMatchA q u = true) := by
  induction p with
  | nil =>
    intro s
    rw [List.map_nil, List.nil_append]
    constructor
    · intro h
      exact ⟨[], s, rfl, List.Forall₂.nil, h⟩
    · rintro ⟨t, u, hs, hf, hm⟩
      cases hf
      rw [List.nil_append] at hs
      rw [hs]
      exact hm
  | cons c p2 ih =>
    intro s
    rw [List.map_cons, List.cons_append]
    by_cases hc : c = '.'
    · rw [show atomOf c = RAtom.anyChar from by rw [atomOf, if_pos hc]]
      cases s with
      | nil =>
        rw [show reMatchA (RAtom.anyChar :: (p2.map atomOf ++ q)) [] = false from rfl]
        constructor
        · intro h; cases h
        · rintro ⟨t, u, hs, hf, -⟩
          cases hf with
          | cons hr hf2 => cases hs
      | cons c2 s2 =>
        rw [show reMatchA (RAtom.anyChar :: (p2.map atomOf ++ q)) (c2 :: s2)
            = reMatchA (p2.map atomOf ++ q) s2 from rfl]
        rw [ih s2]
        constructor
        · rintro ⟨t, u, hs, hf, hm⟩
          exact ⟨c2 :: t, u, by rw [hs]; rfl, List.Forall₂.cons (Or.inl hc) hf, hm⟩
        · rintro ⟨t, u, hs, hf, hm⟩
          cases hf with
          | cons hr hf2 =>
            rw [List.cons_append] at hs
            injection hs with h1 h2
            exact ⟨_, u, h2, hf2, hm⟩
    · rw [show atomOf c = RAtom.lit c from by rw [atomOf, if_neg hc]]
      cases s with
      | nil =>
        rw [show reMatchA (RAtom.lit c :: (p2.map atomOf ++ q)) [] = false from rfl]
        constructor
        · intro h; cases h
        · rintro ⟨t, u, hs, hf, -⟩
          cases hf with
          | cons hr hf2 => cases hs
      | cons c2 s2 =>
        rw [show reMatchA (RAtom.lit c :: (p2.map atomOf ++ q)) (c2 :: s2)
            = (decide (c = c2) && reMatchA (p2.map atomOf ++ q) s2) from rfl]
        rw [Bool.and_eq_true, decide_eq_true_eq, ih s2]
        constructor
        · rintro ⟨hcc, t, u, hs, hf, hm⟩
          exact ⟨c2 :: t, u, by rw [hs]; rfl, List.Forall₂.cons (Or.inr hcc) hf, hm⟩
        · rintro ⟨t, u, hs, hf, hm⟩
          cases hf with
          | cons hr hf2 =>
            rw [List.cons_append] at hs
            injection hs with h1 h2
            refine ⟨?_, _, u, h2, hf2, hm⟩
            cases hr with
            | inl hdot => exact absurd hdot hc
            | inr heq => rw [heq, h1]

theorem reMatchA_atom_only (p : List Char) :
    ∀ s, (reMatchA (p.map atomOf) s = true ↔
      ∃ t u, s = t ++ u ∧ List.Forall₂ charMatchSpec p t) := by
  intro s
  have h := reMatchA_atom_append p [] s
  rw [List.append_nil] at h
  rw [h]
  constructor
  · rintro ⟨t, u, hs, hf, -⟩
    exact ⟨t, u, hs, hf⟩
  · rintro ⟨t, u, hs, hf⟩
    exact ⟨t, u, hs, hf, rfl⟩

theorem reMatch_glob_iff (p : List Char) (hall : ∀ c ∈ p, globPatChar c = true)
    (_hnq : noQuantBrace p = true) :
    ∀ s, (reMatch (compileGlob p) s = true ↔
      ∃ t u, s = t ++ u ∧ List.Forall₂ charMatchSpec p t) := by
  intro s
  have hstar : '*' ∉ p := fun hm => absurd (hall '*' hm) (by decide)
  rw [reMatch, compileGlob_no_star hstar, ratoms_glob hstar, reMatchA_atom_only]

theorem reMatch_glob_star_iff (pre suf : List Char)
    (hpre : ∀ c ∈ pre, globPatChar c = true) (hsuf : ∀ c ∈ suf, globPatChar c = true)
    (_hnq : noQuantBrace (pre ++ '*' :: suf) = true) :
    ∀ s, (reMatch (compileGlob (pre ++ '*' :: suf)) s = true ↔
      ∃ t mid u rest, s = t ++ mid ++ u ++ rest
        ∧ List.Forall₂ charMatchSpec pre t ∧ List.Forall₂ charMatchSpec suf u) := by
  intro s
  have hnpre : '*' ∉ pre := fun hm => absurd (hpre '*' hm) (by decide)
  have hnsuf : '*' ∉ suf := fun hm => absurd (hsuf '*' hm) (by decide)
  rw [reMatch, compileGlob_append, compileGlob_no_star hnpre, compileGlob_star_cons,
    compileGlob_no_star hnsuf]
  rw [ratoms_glob_append ('.' :: '*' :: suf)
    (by rw [List.head?_cons]; intro h; exact absurd (Option.some.inj h) (by decide))
    pre hnpre]
  rw [show ratoms ('.' :: '*' :: suf) = RAtom.anyStar :: ratoms suf from by
    rw [ratoms]; rfl]
  rw [ratoms_glob hnsuf]
  rw [reMatchA_atom_append pre (RAtom.anyStar :: suf.map atomOf) s]
  constructor
  · rintro ⟨t, u0, hs, hf, hm⟩
    rw [show reMatchA (RAtom.anyStar :: suf.map atomOf) u0
        = tryAllSuffixes (reMatchA (suf.map atomOf)) u0 from rfl] at hm
    rw [tryAllSuffixes_iff] at hm
    obtain ⟨mid, u1, hu, hf2⟩ := hm
    rw [reMatchA_atom_only] at hf2
    obtain ⟨u, rest, hu1, hfs⟩ := hf2
    refine ⟨t, mid, u, rest, ?_, hf, hfs⟩
    rw [hs, hu, hu1]
    simp [List.append_assoc]
  · rintro ⟨t, mid, u, rest, hs, hfp, hfs⟩
    refine ⟨t, mid ++ (u ++ rest), by rw [hs]; simp [List.append_assoc], hfp, ?_⟩
    rw [show reMatchA (RAtom.anyStar :: suf.map atomOf) (mid ++ (u ++ rest))
        = tryAllSuffixes (reMatchA (suf.map atomOf)) (mid ++ (u ++ rest)) from rfl]
    rw [tryAllSuffixes_iff]
    refine ⟨mid, u ++ rest, rfl, ?_⟩
    rw [reMatchA_atom_only]
    exact ⟨u, rest, rfl, hfs⟩

/-- C6, counterexample: `re.match` anchors the compiled pattern at the start
of the name only, so the star-free pattern `"att"` matches the name
`"attic"`, which the claim (a pattern without `*` matches only the name equal
to it) forbids. -/
theorem c6_counterexample :
    globMatch "att" "attic" = true ∧ specGlobMatch "att" "attic" = false
    ∧ ("attic" : String) ≠ "att" :=
  ⟨by decide, by decide, by decide⟩

/-- C6, amended: the compiled pattern is matched anchored at the start of the
name only, and the end is never anchored.  The characterization covers the
library's whole glob alphabet, namespace-qualified names included: plain name
characters and braces are matched literally (a left brace whose follower is
not a digit, a comma or a right brace cannot open a `re` repetition
quantifier, so `re` treats it, and every free-standing right brace, as a
literal — the `noQuantBrace` hypothesis states exactly this, which holds of
every namespace-qualified pattern such as `\x7bhttp://ns\x7d*`), while `.`
matches any single character, as `re` reads it.  A star-free pattern matches
every name that BEGINS with a character-by-character match of it, not only
the equal name; a single-star pattern `pre*suf` matches every name of the
form (match of pre) ++ anything ++ (match of suf) ++ anything; and a name is
selected by `remove_attribute` exactly when at least one supplied pattern
matches. -/
theorem c6_wildcard_matching :
    (∀ pats k, matchesAny pats k = pats.any (fun p => globMatch p k))
    ∧ (∀ pattern name : String, globMatch pattern name
        = reMatch (compileGlob pattern.toList) name.toList)
    ∧ (∀ (p : List Char), (∀ c ∈ p, globPatChar c = true) → noQuantBrace p = true →
        ∀ s, (reMatch (compileGlob p) s = true ↔
          ∃ t u, s = t ++ u ∧ List.Forall₂ charMatchSpec p t))
    ∧ (∀ (pre suf : List Char), (∀ c ∈ pre, globPatChar c = true) →
        (∀ c ∈ suf, globPatChar c = true) → noQuantBrace (pre ++ '*' :: suf) = true →
        ∀ s, (reMatch (compileGlob (pre ++ '*' :: suf)) s = true ↔
          ∃ t mid u rest, s = t ++ mid ++ u ++ rest
            ∧ List.Forall₂ charMatchSpec pre t ∧ List.Forall₂ charMatchSpec suf u))
    ∧ globMatch "att*" "attr" = true ∧ globMatch "att*" "attic" = true
    ∧ globMatch "att*" "other" = false :=
  ⟨matchesAny_eq_any, fun _ _ => rfl,
    fun p h hnq s => reMatch_glob_iff p h hnq s,
    fun pre suf h1 h2 hnq s => reMatch_glob_star_iff pre suf h1 h2 hnq s,
    by decide, by decide, by decide⟩

/-- C6, witness: the amended characterization applied at the concrete
namespace-qualified, brace-containing pattern `\x7bhttp://ns\x7dattr` and the
name `\x7bhttp://ns\x7dattrX`, discharging both alphabet hypotheses there. -/
theorem c6_witness :
    reMatch (compileGlob "\x7bhttp://ns\x7dattr".toList) "\x7bhttp://ns\x7dattrX".toList
        = true
      ↔ ∃ t u, "\x7bhttp://ns\x7dattrX".toList = t ++ u
          ∧ List.Forall₂ charMatchSpec "\x7bhttp://ns\x7dattr".toList t :=
  c6_wildcard_matching.2.2.1 "\x7bhttp://ns\x7dattr".toList (by decide) (by decide)
    "\x7bhttp://ns\x7dattrX".toList

theorem prettyPrint_withTail (d : Nat) (n : Node) (v : Option String) :
    prettyPrint d (n.withTail v) = (prettyPrint d n).withTail v := by
  cases n with
  | mk t a tx tl cs => cases cs <;> rfl

theorem specIndent_withTail (unit : String) (d : Nat) (n : Node) (v : Option String) :
    specIndent unit d (n.withTail v) = (specIndent unit d n).withTail v := by
  cases n with
  | mk t a tx tl cs => cases cs <;> rfl

theorem withTail_withTail (n : Node) (v w : Option String) :
    (n.withTail v).withTail w = n.withTail w := by
  cases n with
  | mk t a tx tl cs => rfl

theorem stripWs_withTail (n : Node) (v : Option String) :
    Node.stripWs (n.withTail v) = Node.stripWs n := by
  cases n with
  | mk t a tx tl cs => rfl

theorem prettyPrintList_shape (d : Nat) (c : Node) (cs : List Node) :
    ∃ y ys, prettyPrintList d (c :: cs) = y :: ys := by
  cases cs with
  | nil => exact ⟨_, _, rfl⟩
  | cons c2 rest => exact ⟨_, _, rfl⟩

theorem specIndentList_shape (unit : String) (d : Nat) (c : Node) (cs : List Node) :
    ∃ y ys, specIndentList unit d (c :: cs) = y :: ys := by
  cases cs with
  | nil => exact ⟨_, _, rfl⟩
  | cons c2 rest => exact ⟨_, _, rfl⟩

theorem prettyPrint_idem :
    ∀ n : Node, ∀ d, prettyPrint d (prettyPrint d n) = prettyPrint d n := by
  have main : ∀ n : Node, ∀ d, prettyPrint d (prettyPrint d n) = prettyPrint d n := by
    refine Node.ind ?_
    intro t a tx tl cs ih d
    have listlem : ∀ (d2 : Nat) (l : List Node),
        (∀ c ∈ l, ∀ d3, prettyPrint d3 (prettyPrint d3 c) = prettyPrint d3 c) →
        prettyPrintList d2 (prettyPrintList d2 l) = prettyPrintList d2 l := by
      intro d2 l
      induction l with
      | nil => intro _; rfl
      | cons c rest ihl =>
        intro hmem
        have hc := hmem c (List.mem_cons_self c rest)
        cases rest with
        | nil =>
          show prettyPrintList d2 [(prettyPrint d2 c).withTail (some (ppWs (d2 - 1)))]
            = _
          rw [prettyPrintList]
          rw [prettyPrint_withTail, withTail_withTail, hc d2]
          rfl
        | cons c2 rest2 =>
          have hrest : ∀ x ∈ c2 :: rest2, ∀ d3,
              prettyPrint d3 (prettyPrint d3 x) = prettyPrint d3 x :=
            fun x hx => hmem x (List.mem_cons_of_mem c hx)
          obtain ⟨z, zs, hz⟩ := prettyPrintList_shape d2 c2 rest2
          show prettyPrintList d2
              ((prettyPrint d2 c).withTail (some (ppWs d2)) :: prettyPrintList d2 (c2 :: rest2))
            = _
          rw [hz, prettyPrintList]
          rw [prettyPrint_withTail, withTail_withTail, hc d2]
          rw [← hz, ihl hrest]
          rfl
    cases cs with
    | nil => rfl
    | cons c rest =>
      obtain ⟨y, ys, hy⟩ := prettyPrintList_shape (d + 1) c rest
      show prettyPrint d (.mk t a (some (ppWs (d + 1))) tl (prettyPrintList (d + 1) (c :: rest)))
        = _
      rw [hy, prettyPrint]
      rw [← hy, listlem (d + 1) (c :: rest) ih, hy]
      rw [show prettyPrint d (Node.mk t a tx tl (c :: rest))
          = Node.mk t a (some (ppWs (d + 1))) tl (prettyPrintList (d + 1) (c :: rest)) from rfl]
      rw [hy]
  exact main

theorem specIndent_idem :
    ∀ n : Node, ∀ unit d, specIndent unit d (specIndent unit d n) = specIndent unit d n := by
  refine Node.ind ?_
  intro t a tx tl cs ih unit d
  have listlem : ∀ (d2 : Nat) (l : List Node),
      (∀ c ∈ l, ∀ u2 d3, specIndent u2 d3 (specIndent u2 d3 c) = specIndent u2 d3 c) →
      specIndentList unit d2 (specIndentList unit d2 l) = specIndentList unit d2 l := by
    intro d2 l
    induction l with
    | nil => intro _; rfl
    | cons c rest ihl =>
      intro hmem
      have hc := hmem c (List.mem_cons_self c rest)
      cases rest with
      | nil =>
        show specIndentList unit d2 [(specIndent unit d2 c).withTail (some (indentWs unit (d2 - 1)))]
          = _
        rw [specIndentList]
        rw [specIndent_withTail, withTail_withTail, hc unit d2]
        rfl
      | cons c2 rest2 =>
        have hrest : ∀ x ∈ c2 :: rest2, ∀ u2 d3,
            specIndent u2 d3 (specIndent u2 d3 x) = specIndent u2 d3 x :=
          fun x hx => hmem x (List.mem_cons_of_mem c hx)
        obtain ⟨z, zs, hz⟩ := specIndentList_shape unit d2 c2 rest2
        show specIndentList unit d2
            ((specIndent unit d2 c).withTail (some (indentWs unit d2))
              :: specIndentList unit d2 (c2 :: rest2))
          = _
        rw [hz, specIndentList]
        rw [specIndent_withTail, withTail_withTail, hc unit d2]
        rw [← hz, ihl hrest]
        rfl
  cases cs with
  | nil => rfl
  | cons c rest =>
    obtain ⟨y, ys, hy⟩ := specIndentList_shape unit (d + 1) c rest
    show specIndent unit d
        (.mk t a (if hasNonWs tx then tx else some (indentWs unit (d + 1))) tl
          (specIndentList unit (d + 1) (c :: rest)))
      = _
    rw [hy, specIndent]
    rw [← hy, listlem (d + 1) (c :: rest) ih, hy]
    rw [show specIndent unit d (Node.mk t a tx tl (c :: rest))
        = Node.mk t a (if hasNonWs tx then tx else some (indentWs unit (d + 1))) tl
            (specIndentList unit (d + 1) (c :: rest)) from rfl]
    rw [hy]
    by_cases hws : hasNonWs tx = true
    · rw [if_pos hws, if_pos hws]
    · rw [if_neg hws]
      rw [show (if hasNonWs (some (indentWs unit (d + 1))) = true
          then some (indentWs unit (d + 1)) else some (indentWs unit (d + 1)))
          = some (indentWs unit (d + 1)) from ite_self _]

/-- C8: applying the indenter twice with the same arguments gives the same
text and tail assignments as applying it once — both for the repository's own
`_pretty_print` fallback and for the delegate indenter as the spec describes
it (any unit, any base level). -/
theorem c8_indent_idempotent :
    (∀ (n : Node) (d : Nat), prettyPrint d (prettyPrint d n) = prettyPrint d n)
    ∧ (∀ (n : Node) (unit : String) (lvl : Nat),
        specIndent unit lvl (specIndent unit lvl n) = specIndent unit lvl n) :=
  ⟨prettyPrint_idem, fun n unit lvl => specIndent_idem n unit lvl⟩

theorem prettyPrint_frame :
    ∀ n : Node, ∀ d, Node.stripWs (prettyPrint d n) = Node.stripWs n
      ∧ (prettyPrint d n).tail = n.tail := by
  refine Node.ind ?_
  intro t a tx tl cs ih d
  have listlem : ∀ (d2 : Nat) (l : List Node),
      (∀ c ∈ l, ∀ d3, Node.stripWs (prettyPrint d3 c) = Node.stripWs c) →
      stripWsList (prettyPrintList d2 l) = stripWsList l := by
    intro d2 l
    induction l with
    | nil => intro _; rfl
    | cons c rest ihl =>
      intro hmem
      have hc := hmem c (List.mem_cons_self c rest)
      cases rest with
      | nil =>
        show stripWsList [(prettyPrint d2 c).withTail (some (ppWs (d2 - 1)))] = _
        rw [stripWsList, stripWsList]
        rw [stripWs_withTail, hc d2]
        rfl
      | cons c2 rest2 =>
        have hrest : ∀ x ∈ c2 :: rest2, ∀ d3,
            Node.stripWs (prettyPrint d3 x) = Node.stripWs x :=
          fun x hx => hmem x (List.mem_cons_of_mem c hx)
        show stripWsList
            ((prettyPrint d2 c).withTail (some (ppWs d2)) :: prettyPrintList d2 (c2 :: rest2))
          = _
        rw [stripWsList, stripWsList]
        rw [stripWs_withTail, hc d2, ihl hrest]
  constructor
  · cases cs with
    | nil => rfl
    | cons c rest =>
      show Node.stripWs (.mk t a (some (ppWs (d + 1))) tl (prettyPrintList (d + 1) (c :: rest)))
        = _
      rw [Node.stripWs, Node.stripWs]
      rw [listlem (d + 1) (c :: rest) (fun x hx d3 => (ih x hx d3).1)]
  · cases cs <;> rfl

theorem specIndent_frame :
    ∀ n : Node, ∀ unit d, Node.stripWs (specIndent unit d n) = Node.stripWs n
      ∧ (specIndent unit d n).tail = n.tail := by
  refine Node.ind ?_
  intro t a tx tl cs ih unit d
  have listlem : ∀ (d2 : Nat) (l : List Node),
      (∀ c ∈ l, ∀ u2 d3, Node.stripWs (specIndent u2 d3 c) = Node.stripWs c) →
      stripWsList (specIndentList unit d2 l) = stripWsList l := by
    intro d2 l
    induction l with
    | nil => intro _; rfl
    | cons c rest ihl =>
      intro hmem
      have hc := hmem c (List.mem_cons_self c rest)
      cases rest with
      | nil =>
        show stripWsList [(specIndent unit d2 c).withTail (some (indentWs unit (d2 - 1)))] = _
        rw [stripWsList, stripWsList]
        rw [stripWs_withTail, hc unit d2]
        rfl
      | cons c2 rest2 =>
        have hrest : ∀ x ∈ c2 :: rest2, ∀ u2 d3,
            Node.stripWs (specIndent u2 d3 x) = Node.stripWs x :=
          fun x hx => hmem x (List.mem_cons_of_mem c hx)
        show stripWsList
            ((specIndent unit d2 c).withTail (some (indentWs unit d2))
              :: specIndentList unit d2 (c2 :: rest2))
          = _
        rw [stripWsList, stripWsList]
        rw [stripWs_withTail, hc unit d2, ihl hrest]
  constructor
  · cases cs with
    | nil => rfl
    | cons c rest =>
      show Node.stripWs
          (.mk t a (if hasNonWs tx then tx else some (indentWs unit (d + 1))) tl
            (specIndentList unit (d + 1) (c :: rest)))
        = _
      rw [Node.stripWs, Node.stripWs]
      rw [listlem (d + 1) (c :: rest) (fun x hx u2 d3 => (ih x hx u2 d3).1)]
  · cases cs <;> rfl

theorem dropWhileLen (p : Char → Bool) (l : List Char) :
    (l.dropWhile p).length ≤ l.length := by
  induction l with
  | nil => simp
  | cons c cs ih =>
    rw [List.dropWhile_cons]
    split
    · simp only [List.length_cons]; omega
    · simp

theorem tailLen (l : List Char) : l.tail.length ≤ l.length := by
  cases l <;> simp

theorem tryName_rest_lt {r1 nm rest : List Char} (h : tryName r1 = some (nm, rest)) :
    rest.length < r1.length := by
  match r1 with
  | [] => simp [tryName] at h
  | c :: r2 =>
    rw [tryName] at h
    split at h
    · simp only [Option.some.injEq, Prod.mk.injEq] at h
      obtain ⟨-, h2⟩ := h
      subst h2
      have hd := dropWhileLen isNameChar r2
      have ht := tailLen (r2.dropWhile isNameChar)
      simp only [List.length_cons]
      omega
    · exact absurd h (by simp)

theorem tryTag_rest_lt {cs : List Char} {cl : Bool} {nm rest : List Char}
    (h : tryTag cs = some (cl, nm, rest)) : rest.length < cs.length := by
  rw [tryTag] at h
  split at h
  case isTrue hc =>
    simp only [Option.map_eq_some'] at h
    obtain ⟨⟨nm2, r2⟩, h1, h2⟩ := h
    simp only [Prod.mk.injEq] at h2
    obtain ⟨-, -, h4⟩ := h2
    subst h4
    have h5 := tryName_rest_lt h1
    have h6 := tailLen cs
    omega
  case isFalse hc =>
    simp only [Option.map_eq_some'] at h
    obtain ⟨⟨nm2, r2⟩, h1, h2⟩ := h
    simp only [Prod.mk.injEq] at h2
    obtain ⟨-, -, h4⟩ := h2
    subst h4
    exact tryName_rest_lt h1

theorem scanTagsF_nil (fuel : Nat) : scanTagsF fuel [] = [] := by
  cases fuel <;> rfl

theorem scanTagsF_congr :
    ∀ (n fuel1 fuel2 : Nat) (s : List Char), s.length ≤ n → s.length ≤ fuel1 →
      s.length ≤ fuel2 → scanTagsF fuel1 s = scanTagsF fuel2 s := by
  intro n
  induction n with
  | zero =>
    intro fuel1 fuel2 s hn _ _
    match s with
    | [] => rw [scanTagsF_nil, scanTagsF_nil]
    | c :: cs => simp at hn
  | succ n ih =>
    intro fuel1 fuel2 s hn h1 h2
    match s with
    | [] => rw [scanTagsF_nil, scanTagsF_nil]
    | c :: cs =>
      simp only [List.length_cons] at hn h1 h2
      match fuel1, fuel2 with
      | f1 + 1, f2 + 1 =>
        show scanTagsF (f1 + 1) (c :: cs) = scanTagsF (f2 + 1) (c :: cs)
        rw [scanTagsF, scanTagsF]
        by_cases hc : c = '<'
        · simp only [if_pos hc]
          match htag : tryTag cs with
          | some (cl, nm, rest) =>
            have hlt := tryTag_rest_lt htag
            show Chunk.tag cl nm :: scanTagsF f1 rest = Chunk.tag cl nm :: scanTagsF f2 rest
            rw [ih f1 f2 rest (by omega) (by omega) (by omega)]
          | none =>
            show Chunk.raw c :: scanTagsF f1 cs = Chunk.raw c :: scanTagsF f2 cs
            rw [ih f1 f2 cs (by omega) (by omega) (by omega)]
        · simp only [if_neg hc]
          rw [ih f1 f2 cs (by omega) (by omega) (by omega)]

theorem scanTagsF_eq_scanTags (fuel : Nat) (s : List Char) (h : s.length ≤ fuel) :
    scanTagsF fuel s = scanTags s :=
  scanTagsF_congr fuel fuel s.length s h h (le_refl _)

theorem scanTags_cons_of_ne (c : Char) (cs : List Char) (hc : c ≠ '<') :
    scanTags (c :: cs) = .raw c :: scanTags cs := by
  show scanTagsF (cs.length + 1) (c :: cs) = _
  rw [scanTagsF, if_neg hc, scanTagsF_eq_scanTags cs.length cs (le_refl _)]

theorem scanTags_cons_some {cs : List Char} {cl : Bool} {nm rest : List Char}
    (h : tryTag cs = some (cl, nm, rest)) :
    scanTags ('<' :: cs) = .tag cl nm :: scanTags rest := by
  show scanTagsF (cs.length + 1) ('<' :: cs) = _
  rw [scanTagsF, if_pos rfl, h]
  have hlt := tryTag_rest_lt h
  show Chunk.tag cl nm :: scanTagsF cs.length rest = _
  rw [scanTagsF_eq_scanTags cs.length rest (by omega)]

theorem scanTags_cons_none {cs : List Char} (h : tryTag cs = none) :
    scanTags ('<' :: cs) = .raw '<' :: scanTags cs := by
  show scanTagsF (cs.length + 1) ('<' :: cs) = _
  rw [scanTagsF, if_pos rfl, h, scanTagsF_eq_scanTags cs.length cs (le_refl _)]

theorem spanAll {p : Char → Bool} {l : List Char} {x : Char} (y : List Char)
    (hall : ∀ a ∈ l, p a = true) (hx : p x = false) :
    (l ++ x :: y).takeWhile p = l ∧ (l ++ x :: y).dropWhile p = x :: y := by
  induction l with
  | nil =>
    constructor
    · rw [List.nil_append, List.takeWhile_cons, hx]
      simp
    · rw [List.nil_append, List.dropWhile_cons, hx]
      simp
  | cons a l2 ih =>
    have ha := hall a (List.mem_cons_self a l2)
    have h2 := ih (fun b hb => hall b (List.mem_cons_of_mem a hb))
    constructor
    · rw [List.cons_append, List.takeWhile_cons, ha]
      simp only [if_true]
      rw [h2.1]
    · rw [List.cons_append, List.dropWhile_cons, ha]
      simp only [if_true]
      exact h2.2

theorem tryName_of_valid {nm : List Char} (t : List Char) (h : validName nm) :
    tryName (nm ++ '>' :: t) = some (nm, t) := by
  match nm with
  | [] => exact absurd h (by simp [validName])
  | c :: rest =>
    obtain ⟨h1, h2⟩ := h
    have hgt : isNameChar '>' = false := by decide
    obtain ⟨htake, hdrop⟩ := spanAll t h2 hgt
    rw [List.cons_append, tryName]
    rw [hdrop, htake]
    rw [h1]
    simp

theorem tryName_some_valid {r1 nm rest : List Char} (h : tryName r1 = some (nm, rest)) :
    validName nm := by
  match r1 with
  | [] => simp [tryName] at h
  | c :: r2 =>
    rw [tryName] at h
    split at h
    case isTrue hcond =>
      simp only [Option.some.injEq, Prod.mk.injEq] at h
      obtain ⟨h1, -⟩ := h
      rw [Bool.and_eq_true] at hcond
      rw [← h1]
      refine ⟨hcond.1, ?_⟩
      intro x hx
      exact List.mem_takeWhile_imp hx
    case isFalse => exact absurd h (by simp)

theorem tryTag_some_valid {cs : List Char} {cl : Bool} {nm rest : List Char}
    (h : tryTag cs = some (cl, nm, rest)) : validName nm := by
  rw [tryTag] at h
  split at h
  all_goals {
    simp only [Option.map_eq_some'] at h
    obtain ⟨⟨nm2, r2⟩, h1, h2⟩ := h
    simp only [Prod.mk.injEq] at h2
    obtain ⟨-, h3, -⟩ := h2
    subst h3
    exact tryName_some_valid h1
  }

theorem validName_head_ne_slash {nm : List Char} (h : validName nm) :
    nm.head? ≠ some '/' := by
  match nm with
  | [] => simp
  | c :: rest =>
    obtain ⟨h1, -⟩ := h
    intro he
    simp only [List.head?_cons, Option.some.injEq] at he
    subst he
    exact absurd h1 (by decide)

theorem tryTag_of_valid_open {nm : List Char} (t : List Char) (h : validName nm) :
    tryTag (nm ++ '>' :: t) = some (false, nm, t) := by
  rw [tryTag]
  have hne : (nm ++ '>' :: t).head? ≠ some '/' := by
    match nm with
    | [] => exact absurd h (by simp [validName])
    | c :: rest =>
      rw [List.cons_append, List.head?_cons]
      exact validName_head_ne_slash h
  rw [if_neg hne, tryName_of_valid t h]
  rfl

theorem tryTag_of_valid_close {nm : List Char} (t : List Char) (h : validName nm) :
    tryTag ('/' :: (nm ++ '>' :: t)) = some (true, nm, t) := by
  rw [tryTag]
  rw [if_pos (by rfl)]
  rw [List.tail_cons, tryName_of_valid t h]
  rfl

theorem spanBreakLt {p : Char → Bool} (hp : p '<' = false) (a b : List Char) :
    (a ++ '<' :: b).takeWhile p = a.takeWhile p
    ∧ (a ++ '<' :: b).dropWhile p = a.dropWhile p ++ '<' :: b := by
  induction a with
  | nil =>
    constructor
    · rw [List.nil_append, List.takeWhile_cons, hp]
      simp
    · rw [List.nil_append, List.dropWhile_cons, hp]
      simp
  | cons c a2 ih =>
    constructor
    · rw [List.cons_append, List.takeWhile_cons, List.takeWhile_cons]
      cases hpc : p c
      · simp
      · simp only [if_true]
        rw [ih.1]
    · rw [List.cons_append, List.dropWhile_cons, List.dropWhile_cons]
      cases hpc : p c
      · simp
      · simp only [if_true]
        exact ih.2

theorem tryName_none_congr {a : List Char} (b b' : List Char) (ha : '<' ∉ a)
    (h : tryName (a ++ '<' :: b) = none) : tryName (a ++ '<' :: b') = none := by
  match a with
  | [] =>
    rw [List.nil_append]
    rw [tryName]
    exact if_neg (fun hcond => by
      rw [Bool.and_eq_true] at hcond
      exact absurd hcond.1 (by decide))
  | c :: a2 =>
    have hlt : isNameChar '<' = false := by decide
    rw [List.cons_append] at h ⊢
    rw [tryName] at h ⊢
    obtain ⟨-, hdropb⟩ := spanBreakLt hlt a2 b
    obtain ⟨-, hdropb'⟩ := spanBreakLt hlt a2 b'
    rw [hdropb] at h
    rw [hdropb']
    cases hdw : a2.dropWhile isNameChar with
    | nil =>
      rw [hdw] at h
      rw [List.nil_append] at h
      rw [List.nil_append]
      simp only [List.head?_cons] at h ⊢
      exact if_neg (fun hcond => by
        rw [Bool.and_eq_true] at hcond
        exact absurd hcond.2 (by decide))
    | cons d ds =>
      rw [hdw] at h
      rw [List.cons_append] at h
      rw [List.cons_append]
      simp only [List.head?_cons] at h ⊢
      by_cases hcond : (isNameStart c && (some d == some '>')) = true
      · rw [if_pos hcond] at h
        exact absurd h (by simp)
      · rw [if_neg hcond] at h
        rw [if_neg hcond]

theorem tryTag_none_congr {a : List Char} (b b' : List Char) (ha : '<' ∉ a)
    (h : tryTag (a ++ '<' :: b) = none) : tryTag (a ++ '<' :: b') = none := by
  match a with
  | [] =>
    rw [List.nil_append]
    rw [tryTag]
    simp only [List.head?_cons]
    rw [if_neg (by decide)]
    rw [Option.map_eq_none']
    rw [tryName]
    exact if_neg (fun hcond => by
      rw [Bool.and_eq_true] at hcond
      exact absurd hcond.1 (by decide))
  | c :: a2 =>
    have ha2 : '<' ∉ a2 := fun hm => ha (List.mem_cons_of_mem c hm)
    rw [List.cons_append] at h ⊢
    rw [tryTag] at h ⊢
    simp only [List.head?_cons] at h ⊢
    by_cases hc : c = '/'
    · rw [if_pos (by rw [hc])] at h
      rw [if_pos (by rw [hc])]
      rw [Option.map_eq_none'] at h ⊢
      rw [List.tail_cons] at h ⊢
      exact tryName_none_congr b b' ha2 h
    · have hne : ¬(some c = some '/') := fun he => hc (Option.some.inj he)
      rw [if_neg hne] at h
      rw [if_neg hne]
      rw [Option.map_eq_none'] at h ⊢
      rw [show c :: (a2 ++ '<' :: b) = (c :: a2) ++ '<' :: b from rfl] at h
      rw [show c :: (a2 ++ '<' :: b') = (c :: a2) ++ '<' :: b' from rfl]
      exact tryName_none_congr b b' ha h

theorem scanTags_rawRun {a : List Char} (t : List Char) (ha : '<' ∉ a) :
    scanTags (a ++ t) = a.map Chunk.raw ++ scanTags t := by
  induction a with
  | nil => rfl
  | cons c a2 ih =>
    have hc : c ≠ '<' := fun he => ha (he ▸ List.mem_cons_self c a2)
    have ha2 : '<' ∉ a2 := fun hm => ha (List.mem_cons_of_mem c hm)
    rw [List.cons_append, scanTags_cons_of_ne c (a2 ++ t) hc, ih ha2]
    rfl

theorem render_rawRun (a : List Char) (L : List Chunk) :
    render (a.map Chunk.raw ++ L) = a ++ render L := by
  rw [render, render, List.flatMap_append]
  congr 1
  induction a with
  | nil => rfl
  | cons c a2 ih =>
    rw [List.map_cons, List.flatMap_cons, ih]
    rfl

theorem map_maskChunk_rawRun (m : List (List Char × List Char)) (a : List Char)
    (L : List Chunk) :
    (a.map Chunk.raw ++ L).map (maskChunk m) = a.map Chunk.raw ++ L.map (maskChunk m) := by
  rw [List.map_append, List.map_map]
  congr 1

theorem firstLt (cs : List Char) :
    '<' ∉ cs ∨ ∃ a b, cs = a ++ '<' :: b ∧ '<' ∉ a := by
  induction cs with
  | nil => left; simp
  | cons c cs2 ih =>
    by_cases hc : c = '<'
    · right
      exact ⟨[], cs2, by rw [hc]; rfl, by simp⟩
    · cases ih with
      | inl hni =>
        left
        intro hm
        cases List.mem_cons.mp hm with
        | inl he => exact hc he.symm
        | inr hm2 => exact hni hm2
      | inr hex =>
        obtain ⟨a, b, hab, hna⟩ := hex
        right
        refine ⟨c :: a, b, by rw [List.cons_append, ← hab], ?_⟩
        intro hm
        cases List.mem_cons.mp hm with
        | inl he => exact hc he.symm
        | inr hm2 => exact hna hm2

theorem render_cons_raw (c : Char) (L : List Chunk) :
    render (Chunk.raw c :: L) = c :: render L := by
  rw [render, render, List.flatMap_cons]
  rfl

theorem render_cons_tag_false (nm : List Char) (L : List Chunk) :
    render (Chunk.tag false nm :: L) = '<' :: (nm ++ '>' :: render L) := by
  rw [render, render, List.flatMap_cons]
  simp

theorem render_cons_tag_true (nm : List Char) (L : List Chunk) :
    render (Chunk.tag true nm :: L) = '<' :: '/' :: (nm ++ '>' :: render L) := by
  rw [render, render, List.flatMap_cons]
  simp

theorem mask_rawRun (m : List (List Char × List Char)) (a : List Char) :
    (a.map Chunk.raw).map (maskChunk m) = a.map Chunk.raw := by
  rw [List.map_map]
  rfl

theorem renderMask_head_lt (m : List (List Char × List Char)) (b : List Char) :
    ∃ b2, render ((scanTags ('<' :: b)).map (maskChunk m)) = '<' :: b2 := by
  cases htag : tryTag b with
  | some x =>
    obtain ⟨cl, nm, rest⟩ := x
    rw [scanTags_cons_some htag, List.map_cons]
    cases cl with
    | false => exact ⟨_, render_cons_tag_false _ _⟩
    | true => exact ⟨_, render_cons_tag_true _ _⟩
  | none =>
    rw [scanTags_cons_none htag, List.map_cons]
    exact ⟨_, render_cons_raw _ _⟩

theorem tryTag_none_renderMask (m : List (List Char × List Char)) {cs : List Char}
    (h : tryTag cs = none) :
    tryTag (render ((scanTags cs).map (maskChunk m))) = none := by
  cases firstLt cs with
  | inl hni =>
    have h1 : scanTags cs = cs.map Chunk.raw := by
      have h2 := scanTags_rawRun (a := cs) [] hni
      rw [List.append_nil] at h2
      rw [h2]
      rw [show scanTags [] = [] from rfl, List.append_nil]
    rw [h1, mask_rawRun]
    have h3 := render_rawRun cs []
    rw [List.append_nil] at h3
    rw [h3]
    rw [show render [] = [] from rfl, List.append_nil]
    exact h
  | inr hex =>
    obtain ⟨a, b, hab, hna⟩ := hex
    subst hab
    rw [scanTags_rawRun ('<' :: b) hna]
    rw [map_maskChunk_rawRun, render_rawRun]
    obtain ⟨b2, hb2⟩ := renderMask_head_lt m b
    rw [hb2]
    exact tryTag_none_congr b b2 hna h

theorem scanTags_render_mask (m : List (List Char × List Char))
    (hm : ∀ nm, validName nm → validName ((List.lookup nm m).getD nm)) :
    ∀ (n : Nat) (s : List Char), s.length ≤ n →
      scanTags (render ((scanTags s).map (maskChunk m))) = (scanTags s).map (maskChunk m) := by
  intro n
  induction n with
  | zero =>
    intro s hs
    match s with
    | [] => rfl
    | c :: cs => simp at hs
  | succ n ih =>
    intro s hs
    match s with
    | [] => rfl
    | c :: cs =>
      simp only [List.length_cons] at hs
      by_cases hc : c = '<'
      · subst hc
        cases htag : tryTag cs with
        | some x =>
          obtain ⟨cl, nm, rest⟩ := x
          have hrest := tryTag_rest_lt htag
          have hvnm : validName nm := tryTag_some_valid htag
          have hσ : validName ((List.lookup nm m).getD nm) := hm nm hvnm
          rw [scanTags_cons_some htag, List.map_cons]
          rw [show maskChunk m (Chunk.tag cl nm)
              = Chunk.tag cl ((List.lookup nm m).getD nm) from rfl]
          cases cl with
          | false =>
            rw [render_cons_tag_false]
            rw [scanTags_cons_some
              (tryTag_of_valid_open (render ((scanTags rest).map (maskChunk m))) hσ)]
            rw [ih rest (by omega)]
          | true =>
            rw [render_cons_tag_true]
            rw [scanTags_cons_some
              (tryTag_of_valid_close (render ((scanTags rest).map (maskChunk m))) hσ)]
            rw [ih rest (by omega)]
        | none =>
          rw [scanTags_cons_none htag, List.map_cons]
          rw [show maskChunk m (Chunk.raw '<') = Chunk.raw '<' from rfl]
          rw [render_cons_raw]
          rw [scanTags_cons_none (tryTag_none_renderMask m htag)]
          rw [ih cs (by omega)]
      · rw [scanTags_cons_of_ne c cs hc, List.map_cons]
        rw [show maskChunk m (Chunk.raw c) = Chunk.raw c from rfl]
        rw [render_cons_raw]
        rw [scanTags_cons_of_ne c _ hc]
        rw [ih cs (by omega)]

theorem digitChar_nameChar (n : Nat) : isNameChar (digitChar n) = true := by
  unfold digitChar
  split <;> decide

theorem digitChar_toUpper (n : Nat) : (digitChar n).toUpper = digitChar n := by
  unfold digitChar
  split <;> decide

theorem digitVal_digitChar {n : Nat} (h : n < 10) : digitVal (digitChar n) = n := by
  interval_cases n <;> decide

theorem natToDecF_congr :
    ∀ (b fuel1 fuel2 n : Nat), n < b → n < fuel1 → n < fuel2 →
      natToDecF fuel1 n = natToDecF fuel2 n := by
  intro b
  induction b with
  | zero => intro fuel1 fuel2 n hb _ _; omega
  | succ b ih =>
    intro fuel1 fuel2 n hb h1 h2
    match fuel1, fuel2 with
    | f1 + 1, f2 + 1 =>
      rw [natToDecF, natToDecF]
      by_cases hn : n < 10
      · rw [if_pos hn, if_pos hn]
      · rw [if_neg hn, if_neg hn]
        have hd : n / 10 < n := Nat.div_lt_self (by omega) (by omega)
        rw [ih f1 f2 (n / 10) (by omega) (by omega) (by omega)]

theorem natToDec_eq (n : Nat) :
    natToDec n = if n < 10 then [digitChar n] else natToDec (n / 10) ++ [digitChar (n % 10)] := by
  rw [natToDec, natToDecF]
  by_cases hn : n < 10
  · rw [if_pos hn, if_pos hn]
  · rw [if_neg hn, if_neg hn]
    have hd : n / 10 < n := Nat.div_lt_self (by omega) (by omega)
    rw [natToDec]
    rw [natToDecF_congr (n + 1) n (n / 10 + 1) (n / 10) (by omega) (by omega) (by omega)]

theorem natToDec_members (n : Nat) : ∀ c ∈ natToDec n, ∃ k, c = digitChar k := by
  induction n using Nat.strong_induction_on with
  | _ n ih =>
    rw [natToDec_eq]
    by_cases hn : n < 10
    · rw [if_pos hn]
      intro c hc
      rw [List.mem_singleton] at hc
      exact ⟨n, hc⟩
    · rw [if_neg hn]
      intro c hc
      cases List.mem_append.mp hc with
      | inl h2 =>
        have hd : n / 10 < n := Nat.div_lt_self (by omega) (by omega)
        exact ih (n / 10) hd c h2
      | inr h2 =>
        rw [List.mem_singleton] at h2
        exact ⟨n % 10, h2⟩

theorem decVal_append_digit (ds : List Char) (c : Char) :
    decVal (ds ++ [c]) = 10 * decVal ds + digitVal c := by
  rw [decVal, decVal, List.foldl_append]
  rfl

theorem decVal_natToDec (n : Nat) : decVal (natToDec n) = n := by
  induction n using Nat.strong_induction_on with
  | _ n ih =>
    rw [natToDec_eq]
    by_cases hn : n < 10
    · rw [if_pos hn]
      show 10 * 0 + digitVal (digitChar n) = n
      rw [digitVal_digitChar hn]
      omega
    · rw [if_neg hn]
      rw [decVal_append_digit]
      have hd : n / 10 < n := Nat.div_lt_self (by omega) (by omega)
      rw [ih (n / 10) hd]
      rw [digitVal_digitChar (Nat.mod_lt n (by omega))]
      omega

theorem natToDec_inj {i j : Nat} (h : natToDec i = natToDec j) : i = j := by
  have hi := decVal_natToDec i
  have hj := decVal_natToDec j
  rw [h] at hi
  omega

theorem placeholder_inj {i j : Nat} (h : placeholder i = placeholder j) : i = j := by
  rw [placeholder, placeholder] at h
  injection h with h1 h
  injection h with h2 h
  injection h with h3 h
  exact natToDec_inj h

theorem placeholder_valid (i : Nat) : validName (placeholder i) := by
  rw [placeholder]
  refine ⟨by decide, ?_⟩
  intro x hx
  cases List.mem_cons.mp hx with
  | inl he => rw [he]; decide
  | inr h2 =>
    cases List.mem_cons.mp h2 with
    | inl he => rw [he]; decide
    | inr h3 =>
      obtain ⟨k, hk⟩ := natToDec_members i x h3
      rw [hk]
      exact digitChar_nameChar k

theorem placeholder_toUpper (i : Nat) :
    (placeholder i).map Char.toUpper = placeholder i := by
  rw [placeholder]
  simp only [List.map_cons]
  rw [show 'T'.toUpper = 'T' from by decide]
  rw [show 'A'.toUpper = 'A' from by decide]
  rw [show 'G'.toUpper = 'G' from by decide]
  have hmem : ∀ c ∈ natToDec i, Char.toUpper c = c := by
    intro c hc
    obtain ⟨k, hk⟩ := natToDec_members i c hc
    rw [hk]
    exact digitChar_toUpper k
  rw [List.map_congr_left hmem]
  simp

theorem lookupLC_mem {k v : List Char} :
    ∀ {l : List (List Char × List Char)}, List.lookup k l = some v → (k, v) ∈ l := by
  intro l
  induction l with
  | nil => intro h; simp [List.lookup] at h
  | cons hd tl ih =>
    intro h
    match hd with
    | (a, b) =>
      rw [List.lookup_cons] at h
      cases hka : (k == a) with
      | true =>
        rw [hka] at h
        have h2 : some b = some v := h
        injection h2 with h3
        subst h3
        rw [show k = a from by simpa using hka]
        exact List.mem_cons_self _ _
      | false =>
        rw [hka] at h
        have h2 : List.lookup k tl = some v := h
        exact List.mem_cons_of_mem _ (ih h2)

theorem lookupLC_isSome_of_mem_keys {k : List Char} :
    ∀ {l : List (List Char × List Char)}, k ∈ l.map Prod.fst →
      ∃ v, List.lookup k l = some v := by
  intro l
  induction l with
  | nil => intro h; simp at h
  | cons hd tl ih =>
    intro h
    match hd with
    | (a, b) =>
      rw [List.lookup_cons]
      cases hka : (k == a) with
      | true => exact ⟨b, rfl⟩
      | false =>
        have h2 : k ∈ tl.map Prod.fst := by
          rw [List.map_cons, List.mem_cons] at h
          cases h with
          | inl he => exact absurd (by simpa using he : k = a) (by simpa using hka)
          | inr h2 => exact h2
        exact ih h2

theorem lookupLC_none_of_not_mem_keys {k : List Char} :
    ∀ {l : List (List Char × List Char)}, k ∉ l.map Prod.fst →
      List.lookup k l = none := by
  intro l
  induction l with
  | nil => intro _; rfl
  | cons hd tl ih =>
    intro h
    match hd with
    | (a, b) =>
      rw [List.map_cons, List.mem_cons] at h
      push_neg at h
      rw [List.lookup_cons]
      rw [show (k == a) = false from by simpa using h.1]
      exact ih h.2

theorem revLookup_of_mem {k v : List Char} :
    ∀ {l : List (List Char × List Char)}, (k, v) ∈ l → (l.map Prod.snd).Nodup →
      List.lookup v (l.map (fun kv => (kv.2, kv.1))) = some k := by
  intro l
  induction l with
  | nil => intro h _; simp at h
  | cons hd tl ih =>
    intro h hnd
    match hd with
    | (a, b) =>
      rw [List.map_cons, List.nodup_cons] at hnd
      rw [List.map_cons, List.lookup_cons]
      cases List.mem_cons.mp h with
      | inl he =>
        injection he with he1 he2
        subst he1
        subst he2
        rw [show (v == v) = true from by simp]
      | inr h2 =>
        have hvb : v ≠ b := by
          intro he
          apply hnd.1
          rw [← he]
          exact List.mem_map.mpr ⟨(k, v), h2, rfl⟩
        rw [show (v == b) = false from by simpa using hvb]
        exact ih h2 hnd.2

theorem buildMapping_keys (names : List (List Char)) :
    (buildMapping names).map Prod.fst = names := by
  rw [buildMapping, List.map_map]
  exact List.enum_map_snd names

theorem buildMapping_values (names : List (List Char)) :
    (buildMapping names).map Prod.snd = (List.range names.length).map placeholder := by
  rw [buildMapping, List.map_map]
  rw [show (Prod.snd ∘ fun p : Nat × List Char => (p.2, placeholder p.1))
      = placeholder ∘ Prod.fst from rfl]
  rw [← List.map_map]
  rw [List.enum_map_fst]

theorem buildMapping_values_nodup (names : List (List Char)) :
    ((buildMapping names).map Prod.snd).Nodup := by
  rw [buildMapping_values]
  exact (List.nodup_range _).map (fun i j hij => placeholder_inj hij)

theorem buildMapping_mem_shape {names : List (List Char)} {k v : List Char}
    (h : (k, v) ∈ buildMapping names) : ∃ i, v = placeholder i := by
  rw [buildMapping] at h
  rw [List.mem_map] at h
  obtain ⟨p, -, hp⟩ := h
  injection hp with h1 h2
  exact ⟨p.1, h2.symm⟩

theorem tagNames_map_mask (m : List (List Char × List Char)) :
    ∀ L : List Chunk, tagNames (L.map (maskChunk m))
      = (tagNames L).map (fun nm => (List.lookup nm m).getD nm) := by
  intro L
  induction L with
  | nil => rfl
  | cons ch L2 ih =>
    cases ch with
    | raw c =>
      rw [List.map_cons]
      rw [show maskChunk m (Chunk.raw c) = Chunk.raw c from rfl]
      rw [show tagNames (Chunk.raw c :: L2.map (maskChunk m))
          = tagNames (L2.map (maskChunk m)) from rfl]
      rw [show tagNames (Chunk.raw c :: L2) = tagNames L2 from rfl]
      exact ih
    | tag cl nm =>
      rw [List.map_cons]
      rw [show maskChunk m (Chunk.tag cl nm)
          = Chunk.tag cl ((List.lookup nm m).getD nm) from rfl]
      rw [show tagNames (Chunk.tag cl ((List.lookup nm m).getD nm) :: L2.map (maskChunk m))
          = ((List.lookup nm m).getD nm) :: tagNames (L2.map (maskChunk m)) from rfl]
      rw [show tagNames (Chunk.tag cl nm :: L2) = nm :: tagNames L2 from rfl]
      rw [List.map_cons, ih]

theorem restore_name {names : List (List Char)} {t : List Char} (ht : t ∈ names)
    (fold : List Char → List Char)
    (hfold : ∀ nm, (fold nm).map Char.toUpper = nm.map Char.toUpper) :
    postProcessTag (buildMapping names)
      (fold ((List.lookup t (buildMapping names)).getD t)) = t := by
  have hk : t ∈ (buildMapping names).map Prod.fst := by
    rw [buildMapping_keys]
    exact ht
  obtain ⟨v, hv⟩ := lookupLC_isSome_of_mem_keys hk
  have hmem : (t, v) ∈ buildMapping names := lookupLC_mem hv
  obtain ⟨i, hi⟩ := buildMapping_mem_shape hmem
  rw [hv]
  rw [show (some v).getD t = v from rfl]
  rw [postProcessTag]
  rw [hfold v]
  rw [hi, placeholder_toUpper, ← hi]
  rw [revLookup_of_mem hmem (buildMapping_values_nodup names)]

/-- C2: mask/unmask round trip.  `pre_process` rewrites every `<name>` /
`</name>` occurrence to its placeholder; the permissive parser is an external
collaborator modelled as an arbitrary case transformation `fold` of tag names
(its output uppercases to the same string, which is exactly what matters to
`post_process`, since HTML parsers only case-fold names they keep).
Conclusion 1: reading the tag occurrences of the actually produced masked
text, case-folding each and restoring through `post_process` gives back the
original tag occurrences of the input, in order — the round trip is lossless
for tag identity.  Conclusion 2: a tag whose uppercased name is not among the
placeholders of the mapping is left untouched by `post_process`. -/
theorem c2_mask_unmask_roundtrip (s : List Char) (fold : List Char → List Char)
    (hfold : ∀ nm, (fold nm).map Char.toUpper = nm.map Char.toUpper) :
    (tagNames (scanTags (preProcess s).1)).map
        (fun nm => postProcessTag (preProcess s).2 (fold nm))
      = tagNames (scanTags s)
    ∧ (∀ nm, nm.map Char.toUpper ∉ (preProcess s).2.map Prod.snd →
        postProcessTag (preProcess s).2 nm = nm) := by
  have hpre1 : (preProcess s).1
      = render ((scanTags s).map (maskChunk (preProcess s).2)) := rfl
  have hpre2 : (preProcess s).2
      = buildMapping (tagNames (scanTags s)).dedup := rfl
  constructor
  · have hm : ∀ nm, validName nm →
        validName ((List.lookup nm (preProcess s).2).getD nm) := by
      intro nm hv
      cases hl : List.lookup nm (preProcess s).2 with
      | none => exact hv
      | some v =>
        show validName v
        have hmem : (nm, v) ∈ buildMapping (tagNames (scanTags s)).dedup := by
          rw [← hpre2]
          exact lookupLC_mem hl
        obtain ⟨i, hi⟩ := buildMapping_mem_shape hmem
        rw [hi]
        exact placeholder_valid i
    rw [hpre1]
    rw [scanTags_render_mask ((preProcess s).2) hm s.length s (le_refl _)]
    rw [tagNames_map_mask]
    rw [List.map_map]
    have hpt : ∀ t ∈ tagNames (scanTags s),
        ((fun nm => postProcessTag (preProcess s).2 (fold nm)) ∘
          (fun nm => (List.lookup nm (preProcess s).2).getD nm)) t = t := by
      intro t ht
      show postProcessTag (preProcess s).2
        (fold ((List.lookup t (preProcess s).2).getD t)) = t
      have ht2 : t ∈ (tagNames (scanTags s)).dedup := List.mem_dedup.mpr ht
      exact restore_name ht2 fold hfold
    rw [List.map_congr_left hpt]
    simp
  · intro nm hnm
    have hrev : ((preProcess s).2.map (fun kv => (kv.2, kv.1))).map Prod.fst
        = (preProcess s).2.map Prod.snd := by
      rw [List.map_map]
      rfl
    have hnone : List.lookup (nm.map Char.toUpper)
        ((preProcess s).2.map (fun kv => (kv.2, kv.1))) = none := by
      apply lookupLC_none_of_not_mem_keys
      rw [hrev]
      exact hnm
    rw [postProcessTag]
    rw [hnone]

/-- C2, witness: the round trip applied to the concrete input `<q>x</q>` with
a parser that keeps names as they are. -/
theorem c2_witness :
    (tagNames (scanTags (preProcess "<q>x</q>".toList).1)).map
        (fun nm => postProcessTag (preProcess "<q>x</q>".toList).2 ((fun x => x) nm))
      = tagNames (scanTags "<q>x</q>".toList) :=
  (c2_mask_unmask_roundtrip "<q>x</q>".toList (fun x => x) (fun _ => rfl)).1

/-- C9: the indenter only rewrites `text`/`tail` fields — erasing all
character data from the result gives back the erased input, so no node is
added, removed or reordered and no tag or attribute changes — and the scope
root's own tail is never modified.  This holds for the repository's
`_pretty_print` fallback and for the delegate indenter as the spec describes
it. -/
theorem c9_indent_frame :
    (∀ (n : Node) (d : Nat), Node.stripWs (prettyPrint d n) = Node.stripWs n
      ∧ (prettyPrint d n).tail = n.tail)
    ∧ (∀ (n : Node) (unit : String) (lvl : Nat),
        Node.stripWs (specIndent unit lvl n) = Node.stripWs n
        ∧ (specIndent unit lvl n).tail = n.tail) :=
  ⟨prettyPrint_frame, fun n unit lvl => specIndent_frame n unit lvl⟩

end Sanexml
